import Mathlib

/-!
# mail-indexer: a shallow embedding of `mail2es.c`

The program turns one parsed MIME message into a JSON document for Elasticsearch.
This file embeds the classifier (`is_indexable`), the body normaliser (`format_part`),
the tree walker (`process_part`) and the document assembler (`process_mail`) of
`src/mail2es.c`, and proves properties of them. `src/mail-indexer.c` is the earlier form of
the same walker (`parse_part`, `parse_mail`), without classifier and without the
multipart/alternative rule; it is not embedded.

Conventions of the embedding

* A C string is a Lean `String`; functions of `<string.h>` work on its list of characters.
  C strings hold no NUL character.
* A pointer to a GMime object is the object's address, a `Nat`; `NULL` is `none`.
* `int` counters (`depth`, `rank`) are `Nat`: they start at 0 and are only incremented, once
  per leaf part at most, so they stay far below `2^31` for any message that fits in memory.
  For the same reason an identifier `part-<depth>.<rank>` fits the 20 bytes of `id` and of
  `last_node`, and the buffers are plain strings.
* The GMime, json-c and libc functions the program calls are modelled after their documented
  behaviour; each such definition says so.
-/

namespace Mail2es

/-! ## libc -/

/-- The libc `tolower` in the C locale: only `A`..`Z` are changed. -/
def tolower (c : Char) : Char := c.toLower

/-- The libc `strcasecmp` (and GLib `g_ascii_strcasecmp`): compares two strings ignoring ASCII
case; the result is 0 when they are equal up to case, otherwise negative or positive after the
order of the first two lowered characters that differ (only the sign is specified; it is
rendered as -1 or 1). -/
def strcasecmp : List Char → List Char → Int
  | [], [] => 0
  | [], _ :: _ => -1
  | _ :: _, [] => 1
  | a :: as, b :: bs =>
    if tolower a = tolower b then strcasecmp as bs
    else if (tolower a).toNat < (tolower b).toNat then -1 else 1

/-- The libc `strrchr`: the tail of `s` that starts at the last occurrence of `c`,
or `none` (NULL) when `c` does not occur. -/
def strrchr : List Char → Char → Option (List Char)
  | [], _ => none
  | x :: xs, c =>
    match strrchr xs c with
    | some r => some r
    | none => if x = c then some (x :: xs) else none

/-! ## GMime content types -/

/-- A `GMimeContentType`: media type, media subtype and the parameter list. -/
structure GMimeContentType where
  type : String
  subtype : String
  params : List (String × String)
deriving DecidableEq, Repr

/-- GMime `g_mime_content_type_is_type`: compares type and subtype ignoring ASCII case; `"*"` as
the wanted type or subtype is a wildcard. A NULL content type matches nothing. -/
def g_mime_content_type_is_type (mime_type : Option GMimeContentType)
    (type subtype : String) : Bool :=
  match mime_type with
  | none => false
  | some mt =>
    if type = "*" ∨ strcasecmp mt.type.data type.data = 0 then
      if subtype = "*" then true
      else decide (strcasecmp mt.subtype.data subtype.data = 0)
    else false

/-- GMime `g_mime_content_type_to_string`: `type/subtype`, without the parameters. -/
def g_mime_content_type_to_string (mime_type : GMimeContentType) : String :=
  mime_type.type ++ "/" ++ mime_type.subtype

/-- GMime `g_mime_content_type_get_parameter`: the value of the first parameter whose name is
`name` up to ASCII case, or `none` (NULL). -/
def g_mime_content_type_get_parameter (mime_type : GMimeContentType) (name : String) :
    Option String :=
  (mime_type.params.find? (fun p => decide (strcasecmp p.1.data name.data = 0))).map (·.2)

/-! ## The mappings table (`mail2es.c`, lines 23-50) -/

/-- The C `struct ct_type`. -/
structure ct_type where
  type : String
  subtype : String
deriving DecidableEq, Repr

/-- The C `struct file_type_mapping`; the NULL terminators of both arrays are the ends of the
lists. -/
structure file_type_mapping where
  suffix : List String
  ct : List ct_type
deriving DecidableEq, Repr

/-- The static table `mappings`. -/
def mappings : List file_type_mapping := [
  ⟨["txt"], [⟨"text", "plain"⟩, ⟨"application", "txt"⟩]⟩,
  ⟨["html", "htm"], [⟨"text", "html"⟩]⟩,
  ⟨["c"], [⟨"text", "x-csrc"⟩]⟩,
  ⟨["pdf"], [⟨"application", "pdf"⟩, ⟨"application", "x-pdf"⟩, ⟨"text", "pdf"⟩,
    ⟨"text", "x-pdf"⟩]⟩,
  ⟨["rtf"], [⟨"application", "rtf"⟩, ⟨"application", "x-rtf"⟩, ⟨"text", "rtf"⟩,
    ⟨"text", "richtext"⟩]⟩,
  ⟨["doc"], [⟨"application", "msword"⟩, ⟨"application", "x-msword"⟩,
    ⟨"application", "vnd.msword"⟩, ⟨"application", "vnd.ms-word"⟩]⟩,
  ⟨["docx"], [⟨"application", "vnd.openxmlformats-officedocument.wordprocessingml.document"⟩]⟩,
  ⟨["xls"], [⟨"application", "vnd.ms-excel"⟩, ⟨"application", "msexcel"⟩,
    ⟨"application", "x-msexcel"⟩]⟩,
  ⟨["xlsx"], [⟨"application", "vnd.openxmlformats-officedocument.spreadsheetml.sheet"⟩]⟩,
  ⟨["ppt"], [⟨"application", "vnd.ms-powerpoint"⟩, ⟨"application", "mspowerpoint"⟩,
    ⟨"application", "ms-powerpoint"⟩, ⟨"application", "x-mspowerpoint"⟩]⟩,
  ⟨["pptx"],
    [⟨"application", "vnd.openxmlformats-officedocument.presentationml.presentation"⟩]⟩,
  ⟨["odt"], [⟨"application", "vnd.oasis.opendocument.text"⟩]⟩,
  ⟨["ods"], [⟨"application", "vnd.oasis.opendocument.spreadsheet"⟩]⟩,
  ⟨["odp"], [⟨"application", "vnd.oasis.opendocument.presentation"⟩]⟩]

/-! ## The classifier (`mail2es.c`, lines 58-105) -/

/-- The inner `for` loop of `get_content_type_from_filename` (line 74): does some suffix of the
row compare equal to `suffix` under `strcasecmp`? -/
def suffix_matches (suffix : List Char) (m : file_type_mapping) : Bool :=
  m.suffix.any (fun s => decide (strcasecmp suffix s.data = 0))

/-- The C `get_content_type_from_filename(filename, &content_type)`, called with a non-NULL
`*content_type` (its only call site guarantees it).

The result describes the caller's pointer afterwards: `none` when the function stored NULL in
it (absent filename; the object itself is untouched), otherwise `some ct` where `ct` is the
state of the pointed-to object on return. With a matching suffix the object is rewritten in
place (`g_mime_content_type_set_media_type` / `_set_media_subtype`) to the first pair of the
first matching row; its parameters are kept. -/
def get_content_type_from_filename (filename : Option String)
    (content_type : GMimeContentType) : Option GMimeContentType :=
  match filename with
  | none => none
  | some fn =>
    match strrchr fn.data '.' with
    | none => some content_type
    | some p =>
      let suffix := p.tail
      match mappings.find? (suffix_matches suffix) with
      | none => some content_type
      | some m =>
        match m.ct.head? with
        | none => some content_type
        | some c => some { content_type with type := c.type, subtype := c.subtype }

/-- The whitelist loop of `is_indexable` (lines 96-102): some pair of some row matches. -/
def in_mappings (content_type : GMimeContentType) : Bool :=
  mappings.any (fun m => m.ct.any (fun c =>
    g_mime_content_type_is_type (some content_type) c.type c.subtype))

/-- The C `is_indexable(content_type, filename)`.

The first component is the returned `int` as a `Bool`. The second component is the state,
after the call, of the content-type object the caller passed (the part's own content type,
which `get_content_type_from_filename` may have rewritten in place). -/
def is_indexable (content_type : Option GMimeContentType) (filename : Option String) :
    Bool × Option GMimeContentType :=
  match content_type with
  | none => (false, none)
  | some ct =>
    if g_mime_content_type_is_type (some ct) "application" "octet-stream" then
      match get_content_type_from_filename filename ct with
      | none => (false, some ct)
      | some ct1 => (in_mappings ct1, some ct1)
    else (in_mappings ct, some ct)

/-! ## json-c -/

/-- The values the program stores under the keys of the document: a JSON string, a 64-bit
integer, an array of strings (the recipients) and an object whose members are strings (a part
entry). -/
inductive json_value where
  | string (s : String)
  | int64 (n : Int)
  | array (items : List String)
  | object (fields : List (String × String))
deriving DecidableEq, Repr

/-- A json-c object: its members in insertion order. -/
abbrev json_object (α : Type) := List (String × α)

/-- The json-c `json_object_object_get`: the value stored under `key`, if any. -/
def json_object_object_get {α : Type} (obj : json_object α) (key : String) : Option α :=
  (obj.find? (fun e => decide (e.1 = key))).map (·.2)

/-- The json-c `json_object_object_add`: an existing member of that key has its value replaced
in place; otherwise the member is appended. -/
def json_object_object_add {α : Type} (obj : json_object α) (key : String) (val : α) :
    json_object α :=
  if obj.any (fun e => decide (e.1 = key)) then
    obj.map (fun e => if e.1 = key then (key, val) else e)
  else obj ++ [(key, val)]

/-- The json-c `json_object_object_del`: removes the member of that key; nothing happens when
there is none. -/
def json_object_object_del {α : Type} (obj : json_object α) (key : String) : json_object α :=
  obj.filter (fun e => !decide (e.1 = key))

/-! ## GMime objects -/

/-- One octet of a decoded part body. -/
abbrev Octet := Fin 256

/-- The headers of a `GMimeMessage` that `process_mail` reads. `recipients` is what
`g_mime_message_get_all_recipients` collects (To, Cc and Bcc), each address already rendered
by `internet_address_to_string`. -/
structure Headers where
  sender : Option String
  recipients : List String
  subject : Option String
  date : Int
deriving DecidableEq, Repr

/-- A `GMimeObject` with the GObject class the program tests for:
`message` is a `GMimeMessage`, `message_part` a `GMimeMessagePart` (message/rfc822),
`message_fragment` a `GMimeMessagePartial`, `multipart` a `GMimeMultipart`, `part` a
`GMimePart` (a leaf), `other` any other class. `addr` is the address of the object. -/
inductive GMimeObject where
  | message (addr : Nat) (headers : Headers) (mime_part : GMimeObject)
  | message_part (addr : Nat) (content_type : Option GMimeContentType) (message : GMimeObject)
  | message_fragment (addr : Nat) (content_type : Option GMimeContentType)
  | multipart (addr : Nat) (content_type : Option GMimeContentType)
      (children : List GMimeObject)
  | part (addr : Nat) (content_type : Option GMimeContentType) (filename : Option String)
      (content : List Octet)
  | other (addr : Nat) (content_type : Option GMimeContentType)

namespace GMimeObject

/-- The address of the object (the value of a `GMimeObject *` pointing to it). -/
def addr : GMimeObject → Nat
  | message a _ _ => a
  | message_part a _ _ => a
  | message_fragment a _ => a
  | multipart a _ _ => a
  | part a _ _ _ => a
  | other a _ => a

/-- The macro `GMIME_IS_MULTIPART`. -/
def is_multipart : GMimeObject → Bool
  | multipart _ _ _ => true
  | _ => false

/-- The macro `GMIME_IS_MESSAGE_PART`. -/
def is_message_part : GMimeObject → Bool
  | message_part _ _ _ => true
  | _ => false

end GMimeObject

/-- GMime `g_mime_object_get_content_type`; a `GMimeMessage` itself carries none (the header
belongs to its `mime_part`). -/
def g_mime_object_get_content_type : GMimeObject → Option GMimeContentType
  | .message _ _ _ => none
  | .message_part _ ct _ => ct
  | .message_fragment _ ct => ct
  | .multipart _ ct _ => ct
  | .part _ ct _ _ => ct
  | .other _ ct => ct

/-- GMime `g_mime_part_get_filename`. -/
def g_mime_part_get_filename : GMimeObject → Option String
  | .part _ _ filename _ => filename
  | _ => none

/-- The octets that `g_mime_data_wrapper_write_to_stream` writes for the content object of a
part: the body after content-transfer decoding. -/
def g_mime_part_get_content : GMimeObject → List Octet
  | .part _ _ _ content => content
  | _ => []

/-! ## The GMime stream filters -/

/-- The base64 alphabet. -/
def base64_alphabet : List Char :=
  "ABCDEFGHIJKLMNOPQRSTUVWXYZabcdefghijklmnopqrstuvwxyz0123456789+/".data

/-- The character of a 6-bit value. -/
def base64_char (n : Nat) : Char := base64_alphabet.getD n '='

/-- The GMime base64 encoder (`g_mime_filter_basic_new (GMIME_CONTENT_ENCODING_BASE64, TRUE)`,
run to completion): every 3 octets give 4 characters, a final group of 1 or 2 octets is padded
with `=`, and, as MIME requires, a line feed ends every line of 76 characters (19 groups) and
the last line. `already` counts the groups on the current line. -/
def base64_encode (already : Nat) : List Octet → List Char
  | a :: b :: c :: rest =>
    base64_char (a.val / 4) :: base64_char (a.val % 4 * 16 + b.val / 16) ::
    base64_char (b.val % 16 * 4 + c.val / 64) :: base64_char (c.val % 64) ::
    (if already + 1 ≥ 19 then '\n' :: base64_encode 0 rest
     else base64_encode (already + 1) rest)
  | [a, b] =>
    [base64_char (a.val / 4), base64_char (a.val % 4 * 16 + b.val / 16),
     base64_char (b.val % 16 * 4), '=', '\n']
  | [a] => [base64_char (a.val / 4), base64_char (a.val % 4 * 16), '=', '=', '\n']
  | [] => if already > 0 then ['\n'] else []

/-- The 6-bit value of a character of the base64 alphabet; `none` for any other character. -/
def base64_value (c : Char) : Option Nat :=
  let i := base64_alphabet.indexOf c
  if i < 64 then some i else none

/-- Groups of four 6-bit values back to three octets; a last group of three values gives two
octets and one of two values gives one octet. -/
def base64_decode_values : List Nat → List Octet
  | s0 :: s1 :: s2 :: s3 :: rest =>
    Fin.ofNat (s0 * 4 + s1 / 16) :: Fin.ofNat (s1 % 16 * 16 + s2 / 4) ::
    Fin.ofNat (s2 % 4 * 64 + s3) :: base64_decode_values rest
  | [s0, s1, s2] => [Fin.ofNat (s0 * 4 + s1 / 16), Fin.ofNat (s1 % 16 * 16 + s2 / 4)]
  | [s0, s1] => [Fin.ofNat (s0 * 4 + s1 / 16)]
  | _ => []

/-- A standard base64 decoder (RFC 2045): characters outside the alphabet (line feeds, the
padding) are skipped. -/
def base64_decode (s : List Char) : List Octet :=
  base64_decode_values (s.filterMap base64_value)

/-- The bytes of a stream as a C string: one character per octet. -/
def octets_to_string (l : List Octet) : String := String.mk (l.map (fun b => Char.ofNat b.val))

/-! ## The traversal state and the environment -/

/-- One `fprintf` of the debug trace of `process_part` (option `-d`), with its arguments. -/
inductive DebugLine where
  | found (depth : Nat) (parent_content_type content_type : Option String)
  | replace (last_node : String)
  | id (id : String)
  | eol
deriving DecidableEq, Repr

/-- What the program takes from outside: the global `debug` flag and the charset converter
`g_mime_filter_charset_new (charset, "UTF-8")`, which is `none` (NULL) for a charset it cannot
convert and otherwise the conversion of a stream of octets. -/
structure Env where
  debug : Bool
  g_mime_filter_charset_new : String → Option (List Octet → List Octet)

/-- The C `struct mail_part`. `last_part` holds the address of the part visited before.
`stdout` is not a member of the C struct: it is the debug trace written so far, threaded
with the state. -/
structure mail_part where
  mail_tree : json_object json_value
  depth : Nat
  rank : Nat
  id : String
  last_part : Option Nat
  last_node : String
  stdout : List DebugLine
deriving DecidableEq, Repr

/-- The `fprintf (stdout, ...)` calls guarded by `if (debug)`. -/
def debug_print (env : Env) (line : DebugLine) (cur : mail_part) : mail_part :=
  if env.debug then { cur with stdout := cur.stdout ++ [line] } else cur

/-- The identifier `sprintf (cur->id, "part-%d.%d", depth, rank)`. -/
def part_id (depth rank : Nat) : String :=
  "part-" ++ toString depth ++ "." ++ toString rank

/-! ## The body normaliser (`format_part`, lines 110-188) -/

/-- The source charset chosen by `format_part` (lines 148-154). -/
def source_charset (content_type : GMimeContentType) : String :=
  match g_mime_content_type_get_parameter content_type "charset" with
  | some charset => charset
  | none =>
    if g_mime_content_type_is_type (some content_type) "text" "plain" then "ascii"
    else "iso-8859-1"

/-- The field name and the filtered body of `format_part` (lines 137-180): text goes through
the charset filter (skipped when it is NULL) under `body`, anything else through the base64
encoder under `file`. The 8bit "decoder" of the text branch is the identity. -/
def filtered_body (env : Env) (content_type : GMimeContentType) (content : List Octet) :
    String × String :=
  if g_mime_content_type_is_type (some content_type) "text" "*" then
    match env.g_mime_filter_charset_new (source_charset content_type) with
    | some charset_filter => ("body", octets_to_string (charset_filter content))
    | none => ("body", octets_to_string content)
  else ("file", String.mk (base64_encode 0 content))

/-- The JSON node that `format_part` builds for a part (lines 127-185). -/
def part_node (env : Env) (content_type : GMimeContentType) (filename : Option String)
    (content : List Octet) : json_object String :=
  let node : json_object String := []
  let node := json_object_object_add node "content-type"
    (g_mime_content_type_to_string content_type)
  let node :=
    match filename with
    | some fn => json_object_object_add node "filename" fn
    | none => node
  let fb := filtered_body env content_type content
  json_object_object_add node fb.1 fb.2

/-- The C `format_part(part, info)`: adds the node of the part to the tree under `info->id`.
It is only called on a part whose content type is not NULL. -/
def format_part (env : Env) (part : GMimeObject) (info : mail_part) : mail_part :=
  match g_mime_object_get_content_type part with
  | none => info
  | some content_type =>
    let node := part_node env content_type (g_mime_part_get_filename part)
      (g_mime_part_get_content part)
    { info with mail_tree := json_object_object_add info.mail_tree info.id (.object node) }

/-! ## The tree walker (`process_part`, lines 190-258) -/

/-- The part with the content type that `is_indexable` left in it. -/
def set_content_type (part : GMimeObject) (ct : Option GMimeContentType) : GMimeObject :=
  match part with
  | .part a _ filename content => .part a ct filename content
  | .message a h m => .message a h m
  | .message_part a c m => .message_part a c m
  | .message_fragment a c => .message_fragment a c
  | .multipart a c l => .multipart a c l
  | .other a c => .other a c

/-- The branch of `process_part` for a normal leaf part (lines 225-248). -/
def process_leaf (env : Env) (parent part : GMimeObject) (cur : mail_part) : mail_part :=
  let content_type := g_mime_object_get_content_type part
  let parent_content_type := g_mime_object_get_content_type parent
  let cur :=
    if parent.is_multipart || parent.is_message_part then
      if cur.last_part = some parent.addr then
        { cur with depth := cur.depth + 1, rank := 0 }
      else if g_mime_content_type_is_type parent_content_type "multipart" "alternative" then
        let cur := debug_print env (.replace cur.last_node) cur
        { cur with mail_tree := json_object_object_del cur.mail_tree cur.last_node }
      else cur
    else cur
  let cur := { cur with rank := cur.rank + 1, id := part_id cur.depth (cur.rank + 1) }
  let cur := debug_print env (.id cur.id) cur
  match is_indexable content_type (g_mime_part_get_filename part) with
  | (true, ct) => format_part env (set_content_type part ct) cur
  | (false, _) => cur

/-- The end of `process_part`, common to all branches (lines 253-257). The `snprintf` that
uses `cur->id` as its format copies it: an identifier holds no `%`. -/
def process_end (env : Env) (part : GMimeObject) (cur : mail_part) : mail_part :=
  let cur := { cur with last_part := some part.addr, last_node := cur.id }
  debug_print env .eol cur

/-- The first debug line of `process_part` (lines 199-203): the current depth and the content
types of the parent and of the part. -/
def debug_found (env : Env) (parent part : GMimeObject) (cur : mail_part) : mail_part :=
  debug_print env
    (.found cur.depth
      ((g_mime_object_get_content_type parent).map g_mime_content_type_to_string)
      ((g_mime_object_get_content_type part).map g_mime_content_type_to_string)) cur

mutual
/-- The C `process_part(parent, part, rock)`, the callback of the traversal. A part that is
neither a message part, a partial message, a multipart nor a leaf part (`other`, or a message
object itself) falls into the final `else`. -/
def process_part (env : Env) (parent part : GMimeObject) (cur : mail_part) : mail_part :=
  let cur := debug_found env parent part cur
  let cur :=
    match part with
    | .message_part a _ message =>
      g_mime_message_foreach env message { cur with last_part := some a }
    | .message_fragment _ _ => cur
    | .multipart _ _ _ => cur
    | .part _ _ _ _ => process_leaf env parent part cur
    | .other _ _ => cur
    | .message _ _ _ => cur
  process_end env part cur
/-- GMime `g_mime_message_foreach (message, process_part, cur)`: the callback is called on the
top-level part with the message as parent, then on the parts below it. -/
def g_mime_message_foreach (env : Env) (message : GMimeObject) (cur : mail_part) :
    mail_part :=
  match message with
  | .message _ _ mime_part =>
    let cur := process_part env message mime_part cur
    match mime_part with
    | .multipart _ _ children => multipart_foreach env mime_part children cur
    | .message _ _ _ => cur
    | .message_part _ _ _ => cur
    | .message_fragment _ _ => cur
    | .part _ _ _ _ => cur
    | .other _ _ => cur
  | .message_part _ _ _ => cur
  | .message_fragment _ _ => cur
  | .multipart _ _ _ => cur
  | .part _ _ _ _ => cur
  | .other _ _ => cur
/-- GMime `g_mime_multipart_foreach`, on the children still to visit: the callback is called
on each child with the multipart as parent; a child that is itself a multipart is descended
into right after its own visit (depth first). -/
def multipart_foreach (env : Env) (multipart : GMimeObject) (children : List GMimeObject)
    (cur : mail_part) : mail_part :=
  match children with
  | [] => cur
  | part :: rest =>
    let cur := process_part env multipart part cur
    let cur :=
      match part with
      | .multipart _ _ grandchildren => multipart_foreach env part grandchildren cur
      | .message _ _ _ => cur
      | .message_part _ _ _ => cur
      | .message_fragment _ _ => cur
      | .part _ _ _ _ => cur
      | .other _ _ => cur
    multipart_foreach env multipart rest cur
end

/-! ## The document assembler (`process_mail`, lines 263-312) -/

/-- GMime `g_mime_message_get_all_recipients` (GMime 2.x, the API the program is written
against): a new list of all the recipients, or NULL when no recipients are set. -/
def g_mime_message_get_all_recipients (headers : Headers) : Option (List String) :=
  if headers.recipients = [] then none else some headers.recipients

/-- The state after `memset (&rock, 0, ...)` and the creation of the empty tree. -/
def rock_init : mail_part :=
  { mail_tree := [], depth := 0, rank := 0, id := "", last_part := none, last_node := "",
    stdout := [] }

/-- The message headers added by `process_mail` (lines 289-305). -/
def add_headers (headers : Headers) (tree : json_object json_value) : json_object json_value :=
  let tree :=
    match headers.sender with
    | some str => json_object_object_add tree "from" (.string str)
    | none => tree
  let tree :=
    match g_mime_message_get_all_recipients headers with
    | some recipients => json_object_object_add tree "to" (.array recipients)
    | none => tree
  let tree :=
    match headers.subject with
    | some str => json_object_object_add tree "subject" (.string str)
    | none => tree
  json_object_object_add tree "date" (.int64 headers.date)

/-- The headers of a message object; of another object, none are set. -/
def message_headers : GMimeObject → Headers
  | .message _ headers _ => headers
  | _ => { sender := none, recipients := [], subject := none, date := 0 }

/-- The traversal state at the end of `process_mail`, for the message the parser built. -/
def process_mail_state (env : Env) (message : GMimeObject) : mail_part :=
  let rock := { rock_init with mail_tree := add_headers (message_headers message) [] }
  g_mime_message_foreach env message rock

/-- The C `process_mail`: the document `*es_json_doc` for the message the parser built. -/
def process_mail (env : Env) (message : GMimeObject) : json_object json_value :=
  (process_mail_state env message).mail_tree

/-! ## Vocabulary of the statements -/

/-- The text `suf` is what follows the last `.` of the file name `fn`. -/
def is_suffix_of (suf : List Char) (fn : String) : Prop :=
  ∃ before : List Char, fn.data = before ++ '.' :: suf ∧ '.' ∉ suf

/-- The text `suf` equals, ignoring ASCII case, one of the suffixes of the row `m`. -/
def row_has_suffix (suf : List Char) (m : file_type_mapping) : Prop :=
  ∃ s ∈ m.suffix, suf.map tolower = s.data.map tolower

/-- The pairs `(type, subtype)` listed in the mappings table, all rows together. -/
def listed_pairs : List (String × String) :=
  mappings.flatMap (fun m => m.ct.map (fun c => (c.type, c.subtype)))

/-- A media type token with its ASCII letters lowered: media types compare ignoring case. -/
def lowered (s : String) : String := String.mk (s.data.map tolower)

/-- The entry that the walk stores for a leaf part: the node `format_part` builds from the
content type that `is_indexable` left in the part; `none` when the part is not indexable. -/
def part_entry (env : Env) (part : GMimeObject) : Option json_value :=
  match is_indexable (g_mime_object_get_content_type part) (g_mime_part_get_filename part) with
  | (true, some ct) =>
    some (.object (part_node env ct (g_mime_part_get_filename part)
      (g_mime_part_get_content part)))
  | (true, none) => none
  | (false, _) => none

mutual
/-- The calls of `process_part` on leaf parts, as pairs (parent, leaf) in the order they are
made, during one call of `process_part` on `part` with parent `parent`. -/
def part_visits (parent : GMimeObject) : GMimeObject → List (GMimeObject × GMimeObject)
  | .message_part _ _ message => message_visits message
  | .part a ct filename content => [(parent, .part a ct filename content)]
  | .message_fragment _ _ => []
  | .multipart _ _ _ => []
  | .other _ _ => []
  | .message _ _ _ => []
/-- The calls of `process_part` on leaf parts during `g_mime_message_foreach`. -/
def message_visits : GMimeObject → List (GMimeObject × GMimeObject)
  | .message a h mime_part =>
    part_visits (.message a h mime_part) mime_part ++
      (match mime_part with
       | .multipart _ _ children => children_visits mime_part children
       | .message _ _ _ => []
       | .message_part _ _ _ => []
       | .message_fragment _ _ => []
       | .part _ _ _ _ => []
       | .other _ _ => [])
  | .message_part _ _ _ => []
  | .message_fragment _ _ => []
  | .multipart _ _ _ => []
  | .part _ _ _ _ => []
  | .other _ _ => []
/-- The calls of `process_part` on leaf parts during `g_mime_multipart_foreach`. -/
def children_visits (multipart : GMimeObject) :
    List GMimeObject → List (GMimeObject × GMimeObject)
  | [] => []
  | part :: rest =>
    part_visits multipart part ++
      (match part with
       | .multipart _ _ grandchildren => children_visits part grandchildren
       | .message _ _ _ => []
       | .message_part _ _ _ => []
       | .message_fragment _ _ => []
       | .part _ _ _ _ => []
       | .other _ _ => []) ++
      children_visits multipart rest
end

/-- The object is a multipart whose content type is `multipart/alternative`. -/
def is_alternative (p : GMimeObject) : Bool :=
  p.is_multipart &&
    g_mime_content_type_is_type (g_mime_object_get_content_type p) "multipart" "alternative"

mutual
/-- The tree below (and including) the object has no multipart/alternative node. -/
def no_alternative : GMimeObject → Bool
  | .message _ _ mime_part => no_alternative mime_part
  | .message_part _ _ message => no_alternative message
  | .multipart a ct children =>
    !is_alternative (.multipart a ct children) && no_alternative_list children
  | .message_fragment _ _ => true
  | .part _ _ _ _ => true
  | .other _ _ => true
/-- None of the trees of the list has a multipart/alternative node. -/
def no_alternative_list : List GMimeObject → Bool
  | [] => true
  | p :: rest => no_alternative p && no_alternative_list rest
end

/-- The identifiers printed by the debug trace (`[%s]`, line 243), in order. -/
def id_lines : List DebugLine → List String
  | [] => []
  | .id s :: rest => s :: id_lines rest
  | .found _ _ _ :: rest => id_lines rest
  | .replace _ :: rest => id_lines rest
  | .eol :: rest => id_lines rest

/-- The depths printed by the debug trace at the start of each call (`(%d)`, line 200), in
order. -/
def found_depths : List DebugLine → List Nat
  | [] => []
  | .found d _ _ :: rest => d :: found_depths rest
  | .id _ :: rest => found_depths rest
  | .replace _ :: rest => found_depths rest
  | .eol :: rest => found_depths rest

/-- The tree after the entries of the leaf parts of `l` have been added in order, each under
the identifier made of the (depth, rank) paired with it; a part that is not indexable adds
nothing. -/
def add_entries (env : Env) (tree : json_object json_value)
    (l : List ((Nat × Nat) × GMimeObject)) : json_object json_value :=
  l.foldl (fun t e =>
    match part_entry env e.2 with
    | some v => json_object_object_add t (part_id e.1.1 e.1.2) v
    | none => t) tree

/-- How the numbering (depth, rank) moves from one leaf part to the next: a new level is
entered and the rank restarts at 1, or the level is kept and the rank goes up by 1. -/
def numbering_step (a b : Nat × Nat) : Prop :=
  (b.1 = a.1 + 1 ∧ b.2 = 1) ∨ (b.1 = a.1 ∧ b.2 = a.2 + 1)

/-- The lexicographic order on numberings (depth, rank): strictly smaller. -/
def numbering_lt (a b : Nat × Nat) : Prop :=
  a.1 < b.1 ∨ (a.1 = b.1 ∧ a.2 < b.2)

/-! ## Example messages -/

/-- The message multipart/mixed[ multipart/alternative[text/plain, text/html],
application/pdf ], with any headers, file names and bodies. -/
def mixed_alternative_pdf (headers : Headers) (fn1 fn2 fn3 : Option String)
    (c1 c2 c3 : List Octet) : GMimeObject :=
  .message 1 headers
    (.multipart 2 (some ⟨"multipart", "mixed", []⟩)
      [.multipart 3 (some ⟨"multipart", "alternative", []⟩)
        [.part 4 (some ⟨"text", "plain", []⟩) fn1 c1,
         .part 5 (some ⟨"text", "html", []⟩) fn2 c2],
       .part 6 (some ⟨"application", "pdf", []⟩) fn3 c3])

/-- A forwarded message: multipart/mixed[ message/rfc822 ] whose contained message is
multipart/mixed[ text/plain, multipart/mixed[ text/plain ] ]. -/
def forwarded_container : GMimeObject :=
  .message_part 3 (some ⟨"message", "rfc822", []⟩)
    (.message 4 ⟨none, [], none, 0⟩
      (.multipart 5 (some ⟨"multipart", "mixed", []⟩)
        [.part 6 (some ⟨"text", "plain", []⟩) none [104, 105],
         .multipart 7 (some ⟨"multipart", "mixed", []⟩)
           [.part 8 (some ⟨"text", "plain", []⟩) none [104, 111]]]))

/-- The top-level multipart/mixed that holds `forwarded_container`. -/
def forwarded_root : GMimeObject :=
  .multipart 2 (some ⟨"multipart", "mixed", []⟩) [forwarded_container]

/-- The message multipart/mixed[ image/png, text/plain ]. -/
def mixed_png_text : GMimeObject :=
  .message 1 ⟨none, [], none, 0⟩
    (.multipart 2 (some ⟨"multipart", "mixed", []⟩)
      [.part 3 (some ⟨"image", "png", []⟩) none [137, 80, 78, 71],
       .part 4 (some ⟨"text", "plain", []⟩) none [104, 105]])

/-- The message multipart/mixed[ text/plain, multipart/alternative[text/plain, text/html],
application/pdf ], with any headers, file names and bodies. -/
def mixed_text_alternative_pdf (headers : Headers) (fn0 fn1 fn2 fn3 : Option String)
    (c0 c1 c2 c3 : List Octet) : GMimeObject :=
  .message 1 headers
    (.multipart 2 (some ⟨"multipart", "mixed", []⟩)
      [.part 3 (some ⟨"text", "plain", []⟩) fn0 c0,
       .multipart 4 (some ⟨"multipart", "alternative", []⟩)
        [.part 5 (some ⟨"text", "plain", []⟩) fn1 c1,
         .part 6 (some ⟨"text", "html", []⟩) fn2 c2],
       .part 7 (some ⟨"application", "pdf", []⟩) fn3 c3])

/-! # Lemmas -/

/-! ### libc -/

theorem strcasecmp_eq_zero_iff : ∀ (a b : List Char),
    strcasecmp a b = 0 ↔ a.map tolower = b.map tolower
  | [], [] => by simp [strcasecmp]
  | [], _ :: _ => by simp [strcasecmp]
  | _ :: _, [] => by simp [strcasecmp]
  | a :: as, b :: bs => by
    rw [strcasecmp]
    by_cases h : tolower a = tolower b
    · simp [h, strcasecmp_eq_zero_iff as bs]
    · simp only [h, if_false, List.map_cons, List.cons.injEq, false_and, iff_false]
      split <;> simp

theorem strrchr_none : ∀ (s : List Char) (c : Char), strrchr s c = none ↔ c ∉ s
  | [], c => by simp [strrchr]
  | x :: xs, c => by
    rw [strrchr]
    cases h : strrchr xs c with
    | some r =>
      have := (strrchr_none xs c).not.mp (by simp [h])
      simp at this
      simp [this]
    | none =>
      have := (strrchr_none xs c).mp h
      by_cases hx : x = c
      · simp [hx]
      · simp [hx, this]; exact fun h => hx h.symm

theorem strrchr_some : ∀ (s : List Char) (c : Char) (r : List Char),
    strrchr s c = some r ↔ ∃ before, s = before ++ c :: r.tail ∧ c ∉ r.tail ∧ r = c :: r.tail
  | [], c, r => by simp [strrchr]
  | x :: xs, c, r => by
    rw [strrchr]
    cases h : strrchr xs c with
    | some r1 =>
      simp only [Option.some.injEq]
      obtain ⟨b1, h1, h2, h3⟩ := (strrchr_some xs c r1).mp h
      constructor
      · rintro rfl
        exact ⟨x :: b1, by rw [h1]; simp, h2, h3⟩
      · rintro ⟨b2, e1, e2, e3⟩
        -- xs has an occurrence of c, so the split is after x
        cases b2 with
        | nil =>
          simp at e1
          have : c ∈ xs := by rw [h1]; simp
          rw [e1.2] at this
          exact absurd this e2
        | cons y ys =>
          simp at e1
          have hh := (strrchr_some xs c r).mpr ⟨ys, e1.2, e2, e3⟩
          rw [h] at hh
          exact Option.some.inj hh
    | none =>
      have hn := (strrchr_none xs c).mp h
      by_cases hx : x = c
      · subst hx
        simp only [if_true, Option.some.injEq]
        constructor
        · rintro rfl
          exact ⟨[], by simp, by simpa using hn, by simp⟩
        · rintro ⟨b2, e1, e2, e3⟩
          cases b2 with
          | nil => simp at e1; rw [e3, ← e1]
          | cons y ys =>
            simp at e1
            exact absurd (by rw [e1.2]; simp) hn
      · simp only [hx, if_false]
        constructor
        · intro h; cases h
        · rintro ⟨b2, e1, e2, e3⟩
          cases b2 with
          | nil => simp at e1; exact absurd e1.1 hx
          | cons y ys =>
            simp at e1
            exact absurd (by rw [e1.2]; simp) hn

/-! ### json-c objects as finite maps -/

theorem find_replace_ne {α : Type} (key : String) (val : α) (k : String) (hk : ¬ k = key) :
    ∀ obj : json_object α,
    (List.map (fun e => if e.1 = key then (key, val) else e) obj).find?
        (fun e => decide (e.1 = k)) = obj.find? (fun e => decide (e.1 = k))
  | [] => rfl
  | e :: es => by
    rw [List.map_cons, List.find?_cons, List.find?_cons, find_replace_ne key val k hk es]
    by_cases he : e.1 = key
    · have h1 : ¬ (key = k) := fun h => hk h.symm
      have h2 : ¬ (e.1 = k) := fun h => hk (h.symm.trans he)
      simp [he, h1]
    · simp [he]

theorem find_replace_eq {α : Type} (key : String) (val : α) :
    ∀ obj : json_object α, obj.any (fun e => decide (e.1 = key)) = true →
    (List.map (fun e => if e.1 = key then (key, val) else e) obj).find?
        (fun e => decide (e.1 = key)) = some (key, val)
  | [], h => by simp at h
  | e :: es, h => by
    rw [List.map_cons, List.find?_cons]
    by_cases he : e.1 = key
    · simp [he]
    · have : es.any (fun e => decide (e.1 = key)) = true := by
        simpa [he] using h
      simp [he, find_replace_eq key val es this]

theorem get_add {α : Type} (obj : json_object α) (key : String) (val : α) (k : String) :
    json_object_object_get (json_object_object_add obj key val) k =
      if k = key then some val else json_object_object_get obj k := by
  unfold json_object_object_add json_object_object_get
  by_cases hany : obj.any (fun e => decide (e.1 = key)) = true
  · rw [if_pos hany]
    by_cases hk : k = key
    · subst hk
      rw [if_pos rfl, find_replace_eq k val obj hany]; rfl
    · rw [if_neg hk, find_replace_ne key val k hk]
  · rw [if_neg hany]
    have hnone : obj.find? (fun e => decide (e.1 = key)) = none := by
      rw [List.find?_eq_none]
      intro x hx hxk
      exact hany (List.any_eq_true.mpr ⟨x, hx, hxk⟩)
    by_cases hk : k = key
    · subst hk
      rw [if_pos rfl, List.find?_append, hnone]; simp
    · rw [if_neg hk, List.find?_append]
      have : ¬ key = k := fun h => hk h.symm
      cases obj.find? (fun e => decide (e.1 = k)) <;> simp [this]

theorem get_del {α : Type} (obj : json_object α) (key : String) (k : String) :
    json_object_object_get (json_object_object_del obj key) k =
      if k = key then none else json_object_object_get obj k := by
  unfold json_object_object_del json_object_object_get
  induction obj with
  | nil => simp
  | cons e es ih =>
    rw [List.filter_cons]
    by_cases he : e.1 = key
    · simp only [he, decide_True, Bool.not_true, Bool.false_eq_true, if_false, List.find?_cons]
      rw [ih]
      by_cases hk : k = key
      · simp [hk]
      · have : ¬ key = k := fun h => hk h.symm
        simp [hk, this]
    · simp only [he, decide_False, Bool.not_false, if_true, List.find?_cons]
      by_cases hek : e.1 = k
      · have : ¬ k = key := fun h => he (hek.trans h)
        simp [hek, this]
      · simp only [hek, decide_False]
        rw [ih]

/-! ### The identifiers `part-<depth>.<rank>` -/

theorem toDigitsCore_append (fuel : Nat) : ∀ (n : Nat) (ds : List Char),
    Nat.toDigitsCore 10 fuel n ds = Nat.toDigitsCore 10 fuel n [] ++ ds := by
  induction fuel with
  | zero => intro n ds; simp [Nat.toDigitsCore]
  | succ f ih =>
    intro n ds
    simp only [Nat.toDigitsCore]
    split
    · simp
    · rw [ih (n / 10) (_ :: ds), ih (n / 10) [_]]; simp

theorem digitChar_not_dot (k : Nat) (h : k < 10) :
    Nat.digitChar k ≠ '.' ∧ (Nat.digitChar k).toNat - 48 = k := by
  interval_cases k <;> decide

theorem toDigitsCore_spec (fuel : Nat) : ∀ (n : Nat), n < fuel →
    (∀ c ∈ Nat.toDigitsCore 10 fuel n [], c ≠ '.') ∧
    (Nat.toDigitsCore 10 fuel n []).foldl (fun acc c => acc * 10 + (c.toNat - 48)) 0 = n := by
  induction fuel with
  | zero => intro n h; omega
  | succ f ih =>
    intro n hn
    simp only [Nat.toDigitsCore]
    have hd := digitChar_not_dot (n % 10) (Nat.mod_lt _ (by decide))
    split
    · rename_i h0
      constructor
      · intro c hc
        simp at hc; rw [hc]; exact hd.1
      · simp only [List.foldl_cons, List.foldl_nil, Nat.zero_mul, Nat.zero_add]
        rw [hd.2]; omega
    · rename_i h0
      rw [toDigitsCore_append]
      have hlt : n / 10 < f := by omega
      obtain ⟨i1, i2⟩ := ih (n / 10) hlt
      constructor
      · intro c hc
        rw [List.mem_append] at hc
        rcases hc with hc | hc
        · exact i1 c hc
        · simp at hc; rw [hc]; exact hd.1
      · rw [List.foldl_append, i2]
        simp only [List.foldl_cons, List.foldl_nil]
        rw [hd.2]; omega

theorem repr_data (n : Nat) : (toString n).data = Nat.toDigits 10 n := rfl

theorem repr_no_dot (n : Nat) : '.' ∉ (toString n).data := by
  intro h
  exact (toDigitsCore_spec (n + 1) n (by omega)).1 _ h rfl

theorem repr_injective (a b : Nat) (h : toString a = toString b) : a = b := by
  have h1 := (toDigitsCore_spec (a + 1) a (by omega)).2
  have h2 := (toDigitsCore_spec (b + 1) b (by omega)).2
  have : Nat.toDigits 10 a = Nat.toDigits 10 b := by
    rw [← repr_data, ← repr_data, h]
  unfold Nat.toDigits at this
  rw [this] at h1
  omega

theorem append_dot_inj : ∀ (a b c d : List Char), '.' ∉ a → '.' ∉ c →
    a ++ '.' :: b = c ++ '.' :: d → a = c ∧ b = d
  | [], b, [], d, _, _, h => by simpa using h
  | [], b, y :: c, d, _, hc, h => by
    simp at h hc; exact absurd h.1 hc.1
  | x :: a, b, [], d, ha, _, h => by
    simp at h ha; exact absurd h.1.symm ha.1
  | x :: a, b, y :: c, d, ha, hc, h => by
    simp at h ha hc
    obtain ⟨r1, r2⟩ := append_dot_inj a b c d ha.2 hc.2 h.2
    exact ⟨by rw [h.1, r1], r2⟩

theorem part_id_data (d r : Nat) :
    (part_id d r).data = 'p' :: 'a' :: 'r' :: 't' :: '-' ::
      ((toString d).data ++ '.' :: (toString r).data) := by
  simp [part_id, String.data_append]

theorem part_id_inj (d r d1 r1 : Nat) (h : part_id d r = part_id d1 r1) : d = d1 ∧ r = r1 := by
  have h1 : (part_id d r).data = (part_id d1 r1).data := by rw [h]
  rw [part_id_data, part_id_data] at h1
  simp only [List.cons.injEq, true_and] at h1
  obtain ⟨e1, e2⟩ := append_dot_inj _ _ _ _ (repr_no_dot d) (repr_no_dot d1) h1
  exact ⟨repr_injective _ _ (String.ext e1), repr_injective _ _ (String.ext e2)⟩

theorem part_id_ne_header (d r : Nat) :
    part_id d r ≠ "from" ∧ part_id d r ≠ "to" ∧ part_id d r ≠ "subject" ∧
      part_id d r ≠ "date" ∧ part_id d r ≠ "" := by
  have h := part_id_data d r
  refine ⟨?_, ?_, ?_, ?_, ?_⟩ <;> intro e <;> rw [e] at h <;> simp at h

/-! ### The classifier -/

theorem is_type_iff (ct : GMimeContentType) (t s : String) :
    g_mime_content_type_is_type (some ct) t s = true ↔
      (t = "*" ∨ ct.type.data.map tolower = t.data.map tolower) ∧
      (s = "*" ∨ ct.subtype.data.map tolower = s.data.map tolower) := by
  unfold g_mime_content_type_is_type
  simp only [strcasecmp_eq_zero_iff]
  by_cases h1 : t = "*" ∨ ct.type.data.map tolower = t.data.map tolower
  · rw [if_pos h1]
    by_cases h2 : s = "*"
    · simp [h1, h2]
    · simp [h1, h2]
  · rw [if_neg h1]; simp [h1]

theorem listed_pairs_plain : ∀ p ∈ listed_pairs,
    p.1 ≠ "*" ∧ p.2 ≠ "*" ∧ lowered p.1 = p.1 ∧ lowered p.2 = p.2 := by
  decide

theorem in_mappings_iff (ct : GMimeContentType) :
    in_mappings ct = true ↔ (lowered ct.type, lowered ct.subtype) ∈ listed_pairs := by
  unfold in_mappings
  rw [List.any_eq_true]
  unfold listed_pairs
  rw [List.mem_flatMap]
  constructor
  · rintro ⟨m, hm, h⟩
    rw [List.any_eq_true] at h
    obtain ⟨c, hc, h⟩ := h
    refine ⟨m, hm, ?_⟩
    rw [List.mem_map]
    refine ⟨c, hc, ?_⟩
    have hp := listed_pairs_plain (c.type, c.subtype)
      (by unfold listed_pairs; rw [List.mem_flatMap]; exact ⟨m, hm, List.mem_map.mpr ⟨c, hc, rfl⟩⟩)
    rw [is_type_iff] at h
    obtain ⟨h1, h2⟩ := h
    have e1 : lowered ct.type = lowered c.type := by
      rcases h1 with h1 | h1
      · exact absurd h1 hp.1
      · unfold lowered; rw [h1]
    have e2 : lowered ct.subtype = lowered c.subtype := by
      rcases h2 with h2 | h2
      · exact absurd h2 hp.2.1
      · unfold lowered; rw [h2]
    rw [e1, e2, hp.2.2.1, hp.2.2.2]
  · rintro ⟨m, hm, h⟩
    rw [List.mem_map] at h
    obtain ⟨c, hc, h⟩ := h
    refine ⟨m, hm, ?_⟩
    rw [List.any_eq_true]
    refine ⟨c, hc, ?_⟩
    have hp := listed_pairs_plain (c.type, c.subtype)
      (by unfold listed_pairs; rw [List.mem_flatMap]; exact ⟨m, hm, List.mem_map.mpr ⟨c, hc, rfl⟩⟩)
    rw [is_type_iff]
    simp only [Prod.mk.injEq] at h
    constructor
    · right
      have := congrArg String.data (hp.2.2.1.trans h.1)
      simpa [lowered] using this.symm
    · right
      have := congrArg String.data (hp.2.2.2.trans h.2)
      simpa [lowered] using this.symm
theorem suffix_matches_iff (suf : List Char) (m : file_type_mapping) :
    suffix_matches suf m = true ↔ row_has_suffix suf m := by
  unfold suffix_matches row_has_suffix
  rw [List.any_eq_true]
  simp only [decide_eq_true_eq, strcasecmp_eq_zero_iff]

theorem is_suffix_of_unique (suf suf1 : List Char) (fn : String)
    (h : is_suffix_of suf fn) (h1 : is_suffix_of suf1 fn) : suf = suf1 := by
  obtain ⟨b, e, n⟩ := h
  obtain ⟨b1, e1, n1⟩ := h1
  rw [e] at e1
  have := congrArg List.reverse e1
  simp only [List.reverse_append, List.reverse_cons, List.append_assoc, List.singleton_append] at this
  have r := append_dot_inj suf.reverse b.reverse suf1.reverse b1.reverse
    (by simpa using n) (by simpa using n1) this
  exact List.reverse_injective r.1

theorem strrchr_dot (fn : String) :
    (strrchr fn.data '.' = none ∧ ¬ ∃ suf, is_suffix_of suf fn) ∨
    (∃ p, strrchr fn.data '.' = some p ∧ is_suffix_of p.tail fn) := by
  cases h : strrchr fn.data '.' with
  | none =>
    left
    refine ⟨rfl, ?_⟩
    rintro ⟨suf, b, e, _⟩
    have := (strrchr_none fn.data '.').mp h
    rw [e] at this
    simp at this
  | some p =>
    right
    obtain ⟨b, e, n, _⟩ := (strrchr_some fn.data '.' p).mp h
    exact ⟨p, rfl, b, e, n⟩

theorem rows_have_pairs : ∀ m ∈ mappings, ∃ c, m.ct.head? = some c ∧ c ∈ m.ct := by
  decide

theorem octet_stream_not_listed : ("application", "octet-stream") ∉ listed_pairs := by
  decide

theorem octet_stream_lowered (ct : GMimeContentType)
    (h : g_mime_content_type_is_type (some ct) "application" "octet-stream" = true) :
    lowered ct.type = "application" ∧ lowered ct.subtype = "octet-stream" := by
  rw [is_type_iff] at h
  obtain ⟨h1, h2⟩ := h
  constructor
  · rcases h1 with h1 | h1
    · exact absurd h1 (by decide)
    · unfold lowered; rw [h1]; decide
  · rcases h2 with h2 | h2
    · exact absurd h2 (by decide)
    · unfold lowered; rw [h2]; decide

theorem octet_stream_not_in_mappings (ct : GMimeContentType)
    (h : g_mime_content_type_is_type (some ct) "application" "octet-stream" = true) :
    in_mappings ct = false := by
  have := octet_stream_lowered ct h
  cases hm : in_mappings ct with
  | false => rfl
  | true =>
    rw [in_mappings_iff, this.1, this.2] at hm
    exact absurd hm octet_stream_not_listed

theorem first_pair_in_mappings (ct : GMimeContentType) (m : file_type_mapping)
    (hm : m ∈ mappings) (c : ct_type) (hc : m.ct.head? = some c) :
    in_mappings { ct with type := c.type, subtype := c.subtype } = true := by
  obtain ⟨c1, h1, h2⟩ := rows_have_pairs m hm
  rw [hc] at h1
  cases h1
  have hl : (c.type, c.subtype) ∈ listed_pairs := by
    unfold listed_pairs; rw [List.mem_flatMap]; exact ⟨m, hm, List.mem_map.mpr ⟨c, h2, rfl⟩⟩
  have hp := listed_pairs_plain _ hl
  rw [in_mappings_iff]
  simp only
  rw [hp.2.2.1, hp.2.2.2]
  exact hl

/-- What `get_content_type_from_filename` does, by cases on the file name. -/
theorem get_content_type_from_filename_cases (ct : GMimeContentType) (filename : Option String) :
    (filename = none ∧ get_content_type_from_filename filename ct = none) ∨
    (∃ fn, filename = some fn ∧ (¬ ∃ suf, is_suffix_of suf fn) ∧
      get_content_type_from_filename filename ct = some ct) ∨
    (∃ fn suf, filename = some fn ∧ is_suffix_of suf fn ∧ (∀ m ∈ mappings, ¬ row_has_suffix suf m) ∧
      get_content_type_from_filename filename ct = some ct) ∨
    (∃ fn suf before m after c, filename = some fn ∧ is_suffix_of suf fn ∧
      mappings = before ++ m :: after ∧ (∀ x ∈ before, ¬ row_has_suffix suf x) ∧
      row_has_suffix suf m ∧ m.ct.head? = some c ∧
      get_content_type_from_filename filename ct =
        some { ct with type := c.type, subtype := c.subtype }) := by
  cases filename with
  | none => left; exact ⟨rfl, rfl⟩
  | some fn =>
    right
    unfold get_content_type_from_filename
    rcases strrchr_dot fn with ⟨h1, h2⟩ | ⟨p, h1, h2⟩
    · left
      exact ⟨fn, rfl, h2, by simp only [h1]⟩
    · right
      simp only [h1]
      cases hf : mappings.find? (suffix_matches p.tail) with
      | none =>
        left
        refine ⟨fn, p.tail, rfl, h2, ?_, rfl⟩
        intro m hm hr
        rw [List.find?_eq_none] at hf
        exact hf m hm ((suffix_matches_iff _ _).mpr hr)
      | some m =>
        right
        rw [List.find?_eq_some] at hf
        obtain ⟨hp, before, after, hl, hb⟩ := hf
        have hm : m ∈ mappings := by rw [hl]; simp
        obtain ⟨c, hc, _⟩ := rows_have_pairs m hm
        refine ⟨fn, p.tail, before, m, after, c, rfl, h2, hl, ?_, (suffix_matches_iff _ _).mp hp, hc, ?_⟩
        · intro x hx hr
          have := hb x hx
          rw [(suffix_matches_iff _ _).mpr hr] at this
          simp at this
        · simp only [hc]

theorem first_match_unique {suf : List Char} {before before1 after after1 : List file_type_mapping}
    {m m1 : file_type_mapping}
    (e : before ++ m :: after = before1 ++ m1 :: after1)
    (hb : ∀ x ∈ before, ¬ row_has_suffix suf x) (hm : row_has_suffix suf m)
    (hb1 : ∀ x ∈ before1, ¬ row_has_suffix suf x) (hm1 : row_has_suffix suf m1) : m = m1 := by
  induction before generalizing before1 with
  | nil =>
    cases before1 with
    | nil => simpa using (List.cons.inj e).1
    | cons y ys =>
      simp at e
      exact absurd (e.1 ▸ hm) (hb1 y (by simp))
  | cons x xs ih =>
    cases before1 with
    | nil =>
      simp at e
      exact absurd (e.1 ▸ hm1) (hb x (by simp))
    | cons y ys =>
      simp at e
      exact ih e.2 (fun z hz => hb z (by simp [hz])) (fun z hz => hb1 z (by simp [hz]))
/-! ### The walker, one call at a time -/

@[simp] theorem debug_print_mail_tree (env : Env) (l : DebugLine) (cur : mail_part) :
    (debug_print env l cur).mail_tree = cur.mail_tree := by
  unfold debug_print; split <;> rfl

@[simp] theorem debug_print_depth (env : Env) (l : DebugLine) (cur : mail_part) :
    (debug_print env l cur).depth = cur.depth := by
  unfold debug_print; split <;> rfl

@[simp] theorem debug_print_rank (env : Env) (l : DebugLine) (cur : mail_part) :
    (debug_print env l cur).rank = cur.rank := by
  unfold debug_print; split <;> rfl

@[simp] theorem debug_print_id (env : Env) (l : DebugLine) (cur : mail_part) :
    (debug_print env l cur).id = cur.id := by
  unfold debug_print; split <;> rfl

@[simp] theorem debug_print_last_part (env : Env) (l : DebugLine) (cur : mail_part) :
    (debug_print env l cur).last_part = cur.last_part := by
  unfold debug_print; split <;> rfl

@[simp] theorem debug_print_last_node (env : Env) (l : DebugLine) (cur : mail_part) :
    (debug_print env l cur).last_node = cur.last_node := by
  unfold debug_print; split <;> rfl

theorem debug_print_stdout (env : Env) (l : DebugLine) (cur : mail_part) :
    (debug_print env l cur).stdout = if env.debug then cur.stdout ++ [l] else cur.stdout := by
  unfold debug_print; split <;> rfl

/-- The state a leaf part is numbered in: after the level has been entered, or the previous
alternative deleted (lines 227-239). -/
theorem process_leaf_eq (env : Env) (parent : GMimeObject) (a : Nat)
    (ct : Option GMimeContentType) (filename : Option String) (content : List Octet)
    (cur : mail_part) :
    let p := GMimeObject.part a ct filename content
    let r := process_leaf env parent p cur
    let inside := (parent.is_multipart || parent.is_message_part) = true
    let enter := inside ∧ cur.last_part = some parent.addr
    let repl := inside ∧ cur.last_part ≠ some parent.addr ∧
      g_mime_content_type_is_type (g_mime_object_get_content_type parent)
        "multipart" "alternative" = true
    r.depth = (if enter then cur.depth + 1 else cur.depth) ∧
    r.rank = (if enter then 1 else cur.rank + 1) ∧
    r.id = part_id r.depth r.rank ∧
    r.last_part = cur.last_part ∧
    r.last_node = cur.last_node ∧
    r.mail_tree =
      (match part_entry env p with
       | some v =>
         json_object_object_add
           (if repl then json_object_object_del cur.mail_tree cur.last_node else cur.mail_tree)
           r.id v
       | none =>
         if repl then json_object_object_del cur.mail_tree cur.last_node else cur.mail_tree) := by
  intro p r inside enter repl
  have hgc : ∀ o, g_mime_object_get_content_type (set_content_type p o) = o := fun _ => rfl
  have hgf : ∀ o, g_mime_part_get_filename (set_content_type p o) = filename := fun _ => rfl
  have hgb : ∀ o, g_mime_part_get_content (set_content_type p o) = content := fun _ => rfl
  have hpe : part_entry env p =
      (match is_indexable ct filename with
       | (true, some c) => some (.object (part_node env c filename content))
       | (true, none) => none
       | (false, _) => none) := rfl
  rw [hpe]
  simp only [r, enter, repl, inside, p]
  unfold process_leaf format_part
  rcases hi : is_indexable ct filename with ⟨b, o⟩
  have hi' : is_indexable (g_mime_object_get_content_type (GMimeObject.part a ct filename content))
      (g_mime_part_get_filename (GMimeObject.part a ct filename content)) = (b, o) := hi
  simp only [hi']
  by_cases h1 : (parent.is_multipart || parent.is_message_part) = true
  · by_cases h2 : cur.last_part = some parent.addr
    · cases b <;> cases o <;> simp [h1, h2, hgc, hgf, hgb]
    · by_cases h3 : g_mime_content_type_is_type (g_mime_object_get_content_type parent)
          "multipart" "alternative" = true
      · cases b <;> cases o <;> simp [h1, h2, h3, hgc, hgf, hgb]
      · cases b <;> cases o <;> simp [h1, h2, h3, hgc, hgf, hgb]
  · cases b <;> cases o <;> simp [h1, hgc, hgf, hgb]
@[simp] theorem debug_found_mail_tree (env : Env) (parent p : GMimeObject) (cur : mail_part) :
    (debug_found env parent p cur).mail_tree = cur.mail_tree := by simp [debug_found]

@[simp] theorem debug_found_depth (env : Env) (parent p : GMimeObject) (cur : mail_part) :
    (debug_found env parent p cur).depth = cur.depth := by simp [debug_found]

@[simp] theorem debug_found_rank (env : Env) (parent p : GMimeObject) (cur : mail_part) :
    (debug_found env parent p cur).rank = cur.rank := by simp [debug_found]

@[simp] theorem debug_found_id (env : Env) (parent p : GMimeObject) (cur : mail_part) :
    (debug_found env parent p cur).id = cur.id := by simp [debug_found]

@[simp] theorem debug_found_last_part (env : Env) (parent p : GMimeObject) (cur : mail_part) :
    (debug_found env parent p cur).last_part = cur.last_part := by simp [debug_found]

@[simp] theorem debug_found_last_node (env : Env) (parent p : GMimeObject) (cur : mail_part) :
    (debug_found env parent p cur).last_node = cur.last_node := by simp [debug_found]

@[simp] theorem process_end_mail_tree (env : Env) (p : GMimeObject) (cur : mail_part) :
    (process_end env p cur).mail_tree = cur.mail_tree := by simp [process_end]

@[simp] theorem process_end_depth (env : Env) (p : GMimeObject) (cur : mail_part) :
    (process_end env p cur).depth = cur.depth := by simp [process_end]

@[simp] theorem process_end_rank (env : Env) (p : GMimeObject) (cur : mail_part) :
    (process_end env p cur).rank = cur.rank := by simp [process_end]

@[simp] theorem process_end_id (env : Env) (p : GMimeObject) (cur : mail_part) :
    (process_end env p cur).id = cur.id := by simp [process_end]

@[simp] theorem process_end_last_part (env : Env) (p : GMimeObject) (cur : mail_part) :
    (process_end env p cur).last_part = some p.addr := by simp [process_end]

@[simp] theorem process_end_last_node (env : Env) (p : GMimeObject) (cur : mail_part) :
    (process_end env p cur).last_node = cur.id := by simp [process_end]

theorem process_part_leaf (env : Env) (parent : GMimeObject) (a : Nat)
    (ct : Option GMimeContentType) (filename : Option String) (content : List Octet)
    (cur : mail_part) :
    process_part env parent (.part a ct filename content) cur =
      process_end env (.part a ct filename content)
        (process_leaf env parent (.part a ct filename content)
          (debug_found env parent (.part a ct filename content) cur)) := by
  rw [process_part]

theorem process_part_multipart (env : Env) (parent : GMimeObject) (a : Nat)
    (ct : Option GMimeContentType) (children : List GMimeObject) (cur : mail_part) :
    process_part env parent (.multipart a ct children) cur =
      process_end env (.multipart a ct children)
        (debug_found env parent (.multipart a ct children) cur) := by
  rw [process_part]

theorem process_part_message_part (env : Env) (parent : GMimeObject) (a : Nat)
    (ct : Option GMimeContentType) (message : GMimeObject) (cur : mail_part) :
    process_part env parent (.message_part a ct message) cur =
      process_end env (.message_part a ct message)
        (g_mime_message_foreach env message
          { debug_found env parent (.message_part a ct message) cur with
            last_part := some a }) := by
  rw [process_part]

theorem process_part_message_fragment (env : Env) (parent : GMimeObject) (a : Nat)
    (ct : Option GMimeContentType) (cur : mail_part) :
    process_part env parent (.message_fragment a ct) cur =
      process_end env (.message_fragment a ct)
        (debug_found env parent (.message_fragment a ct) cur) := by
  rw [process_part]

theorem process_part_other (env : Env) (parent : GMimeObject) (a : Nat)
    (ct : Option GMimeContentType) (cur : mail_part) :
    process_part env parent (.other a ct) cur =
      process_end env (.other a ct) (debug_found env parent (.other a ct) cur) := by
  rw [process_part]

theorem process_part_message (env : Env) (parent : GMimeObject) (a : Nat)
    (h : Headers) (m : GMimeObject) (cur : mail_part) :
    process_part env parent (.message a h m) cur =
      process_end env (.message a h m) (debug_found env parent (.message a h m) cur) := by
  rw [process_part]

/-- The entry of an indexable leaf part is in the tree, under the part's identifier, when
`process_part` returns. -/
theorem process_part_leaf_entry (env : Env) (parent : GMimeObject) (a : Nat)
    (ct : Option GMimeContentType) (filename : Option String) (content : List Octet)
    (cur : mail_part) (v : json_value)
    (hv : part_entry env (.part a ct filename content) = some v) :
    json_object_object_get
      (process_part env parent (.part a ct filename content) cur).mail_tree
      (process_part env parent (.part a ct filename content) cur).id = some v := by
  rw [process_part_leaf]
  simp only [process_end_mail_tree, process_end_id]
  have h := process_leaf_eq env parent a ct filename content
    (debug_found env parent (.part a ct filename content) cur)
  simp only [] at h
  obtain ⟨_, _, _, _, _, ht⟩ := h
  rw [ht, hv]
  simp only [get_add, if_true]

/-- The entry of a leaf part, from the result of `is_indexable`. -/
theorem part_entry_of_indexable (env : Env) (a : Nat) (ct : Option GMimeContentType)
    (filename : Option String) (content : List Octet) (ct1 : GMimeContentType)
    (h : is_indexable ct filename = (true, some ct1)) :
    part_entry env (.part a ct filename content) =
      some (.object (part_node env ct1 filename content)) := by
  unfold part_entry
  show (match is_indexable ct filename with
    | (true, some c) => some (json_value.object (part_node env c filename content))
    | (true, none) => none
    | (false, _) => none) = _
  rw [h]

theorem is_indexable_snd (ct : Option GMimeContentType) (filename : Option String)
    (h : (is_indexable ct filename).1 = true) : ∃ ct1, is_indexable ct filename = (true, some ct1) := by
  unfold is_indexable at h ⊢
  cases ct with
  | none => simp at h
  | some c =>
    simp only at h ⊢
    split
    · rename_i ho
      rw [if_pos ho] at h
      cases hg : get_content_type_from_filename filename c with
      | none => rw [hg] at h; simp at h
      | some c1 => rw [hg] at h; simp only at h ⊢; exact ⟨c1, by rw [h]⟩
    · rename_i ho
      rw [if_neg ho] at h
      simp only at h
      exact ⟨c, by rw [h]⟩

theorem part_node_content_type (env : Env) (ct : GMimeContentType) (filename : Option String)
    (content : List Octet) :
    json_object_object_get (part_node env ct filename content) "content-type" =
      some (g_mime_content_type_to_string ct) := by
  unfold part_node
  have hb : (filtered_body env ct content).1 = "body" ∨ (filtered_body env ct content).1 = "file" := by
    unfold filtered_body
    split
    · split <;> simp
    · simp
  have hne : ¬ ("content-type" = (filtered_body env ct content).1) := by
    rcases hb with hb | hb <;> rw [hb] <;> decide
  cases filename with
  | none =>
    simp only [get_add, hne, if_false]
    simp [json_object_object_get]
  | some fn =>
    simp only [get_add, hne, if_false]
    simp [json_object_object_get]

/-! ### The base64 filter -/

theorem base64_value_char : ∀ n : Fin 64, base64_value (base64_char n.val) = some n.val := by
  decide

theorem base64_value_char_lt (n : Nat) (h : n < 64) : base64_value (base64_char n) = some n :=
  base64_value_char ⟨n, h⟩

theorem base64_value_skip : base64_value '\n' = none ∧ base64_value '=' = none := by
  decide

theorem octet_of_val (a : Octet) (n : Nat) (h : n = a.val) : (Fin.ofNat n : Octet) = a := by
  apply Fin.ext
  have := a.isLt
  simp only [Fin.ofNat, h]
  omega

theorem base64_roundtrip : ∀ (content : List Octet) (already : Nat),
    base64_decode (base64_encode already content) = content
  | [], already => by
    unfold base64_decode base64_encode
    split <;> simp [base64_value_skip, base64_decode_values]
  | [a], already => by
    have ha := a.isLt
    unfold base64_decode base64_encode
    simp only [List.filterMap_cons, List.filterMap_nil, base64_value_skip,
      base64_value_char_lt (a.val / 4) (by omega),
      base64_value_char_lt (a.val % 4 * 16) (by omega), base64_decode_values]
    rw [octet_of_val a _ (by omega)]
  | [a, b], already => by
    have ha := a.isLt
    have hb := b.isLt
    unfold base64_decode base64_encode
    simp only [List.filterMap_cons, List.filterMap_nil, base64_value_skip,
      base64_value_char_lt (a.val / 4) (by omega),
      base64_value_char_lt (a.val % 4 * 16 + b.val / 16) (by omega),
      base64_value_char_lt (b.val % 16 * 4) (by omega), base64_decode_values]
    rw [octet_of_val a _ (by omega), octet_of_val b _ (by omega)]
  | a :: b :: c :: rest, already => by
    have ha := a.isLt
    have hb := b.isLt
    have hc := c.isLt
    have ih0 := base64_roundtrip rest 0
    have ih1 := base64_roundtrip rest (already + 1)
    unfold base64_decode at ih0 ih1 ⊢
    unfold base64_encode
    simp only [List.filterMap_cons,
      base64_value_char_lt (a.val / 4) (by omega),
      base64_value_char_lt (a.val % 4 * 16 + b.val / 16) (by omega),
      base64_value_char_lt (b.val % 16 * 4 + c.val / 64) (by omega),
      base64_value_char_lt (c.val % 64) (by omega)]
    split
    · simp only [List.filterMap_cons, base64_value_skip, base64_decode_values]
      rw [ih0, octet_of_val a _ (by omega), octet_of_val b _ (by omega),
        octet_of_val c _ (by omega)]
    · simp only [base64_decode_values]
      rw [ih1, octet_of_val a _ (by omega), octet_of_val b _ (by omega),
        octet_of_val c _ (by omega)]
/-! ### Induction over the traversal -/

theorem message_foreach_multipart (env : Env) (a : Nat) (h : Headers) (a2 : Nat)
    (ct2 : Option GMimeContentType) (ch : List GMimeObject) (s : mail_part) :
    g_mime_message_foreach env (.message a h (.multipart a2 ct2 ch)) s =
      multipart_foreach env (.multipart a2 ct2 ch) ch
        (process_part env (.message a h (.multipart a2 ct2 ch)) (.multipart a2 ct2 ch) s) := by
  conv => lhs; unfold g_mime_message_foreach

theorem message_foreach_single (env : Env) (a : Nat) (h : Headers) (root : GMimeObject)
    (hr : root.is_multipart = false) (s : mail_part) :
    g_mime_message_foreach env (.message a h root) s =
      process_part env (.message a h root) root s := by
  conv => lhs; unfold g_mime_message_foreach
  cases root with
  | multipart _ _ _ => simp [GMimeObject.is_multipart] at hr
  | _ => rfl

theorem message_foreach_not_message (env : Env) (m : GMimeObject)
    (hm : ∀ a h root, m ≠ .message a h root) (s : mail_part) :
    g_mime_message_foreach env m s = s := by
  conv => lhs; unfold g_mime_message_foreach
  cases m <;> first | rfl | exact absurd rfl (hm _ _ _)

theorem multipart_foreach_nil (env : Env) (mp : GMimeObject) (s : mail_part) :
    multipart_foreach env mp [] s = s := by
  conv => lhs; unfold multipart_foreach

theorem multipart_foreach_cons_multipart (env : Env) (mp : GMimeObject) (a2 : Nat)
    (ct2 : Option GMimeContentType) (ch rest : List GMimeObject) (s : mail_part) :
    multipart_foreach env mp (.multipart a2 ct2 ch :: rest) s =
      multipart_foreach env mp rest
        (multipart_foreach env (.multipart a2 ct2 ch) ch
          (process_part env mp (.multipart a2 ct2 ch) s)) := by
  conv => lhs; unfold multipart_foreach

theorem multipart_foreach_cons_single (env : Env) (mp p : GMimeObject)
    (hp : p.is_multipart = false) (rest : List GMimeObject) (s : mail_part) :
    multipart_foreach env mp (p :: rest) s =
      multipart_foreach env mp rest (process_part env mp p s) := by
  conv => lhs; unfold multipart_foreach
  cases p with
  | multipart _ _ _ => simp [GMimeObject.is_multipart] at hp
  | _ => rfl

theorem message_visits_multipart (a : Nat) (h : Headers) (a2 : Nat)
    (ct2 : Option GMimeContentType) (ch : List GMimeObject) :
    message_visits (.message a h (.multipart a2 ct2 ch)) =
      children_visits (.multipart a2 ct2 ch) ch := by
  conv => lhs; unfold message_visits
  simp [part_visits]

theorem message_visits_single (a : Nat) (h : Headers) (root : GMimeObject)
    (hr : root.is_multipart = false) :
    message_visits (.message a h root) = part_visits (.message a h root) root := by
  conv => lhs; unfold message_visits
  cases root with
  | multipart _ _ _ => simp [GMimeObject.is_multipart] at hr
  | _ => simp

theorem children_visits_cons_multipart (mp : GMimeObject) (a2 : Nat)
    (ct2 : Option GMimeContentType) (ch rest : List GMimeObject) :
    children_visits mp (.multipart a2 ct2 ch :: rest) =
      children_visits (.multipart a2 ct2 ch) ch ++ children_visits mp rest := by
  conv => lhs; unfold children_visits
  simp [part_visits]

theorem children_visits_cons_single (mp p : GMimeObject) (hp : p.is_multipart = false)
    (rest : List GMimeObject) :
    children_visits mp (p :: rest) = part_visits mp p ++ children_visits mp rest := by
  conv => lhs; unfold children_visits
  cases p with
  | multipart _ _ _ => simp [GMimeObject.is_multipart] at hp
  | _ => simp

theorem walk_pre (R : List (GMimeObject × GMimeObject) → mail_part → mail_part → Prop)
    (happ : ∀ l1 l2 a b c, R l1 a b → R l2 b c → R (l1 ++ l2) a c)
    {l : List (GMimeObject × GMimeObject)} {a b c : mail_part}
    (h1 : R [] a b) (h2 : R l b c) : R l a c := by
  have := happ [] l a b c h1 h2
  simpa using this

theorem walk_post (R : List (GMimeObject × GMimeObject) → mail_part → mail_part → Prop)
    (happ : ∀ l1 l2 a b c, R l1 a b → R l2 b c → R (l1 ++ l2) a c)
    {l : List (GMimeObject × GMimeObject)} {a b c : mail_part}
    (h1 : R l a b) (h2 : R [] b c) : R l a c := by
  have := happ l [] a b c h1 h2
  simpa using this

/-! Induction over the traversal: a relation between the state before and the state after,
indexed by the leaf visits made in between, that holds for the elementary steps of
`process_part` and composes, holds for the three traversal functions. -/

mutual
theorem walk_part (env : Env)
    (R : List (GMimeObject × GMimeObject) → mail_part → mail_part → Prop)
    (hnil : ∀ s, R [] s s)
    (happ : ∀ l1 l2 a b c, R l1 a b → R l2 b c → R (l1 ++ l2) a c)
    (hfound : ∀ parent p s, R [] s (debug_found env parent p s))
    (hlast : ∀ (a : Nat) (s : mail_part), R [] s { s with last_part := some a })
    (hleaf : ∀ parent a ct filename content s,
      R [(parent, .part a ct filename content)] s
        (process_leaf env parent (.part a ct filename content) s))
    (hend : ∀ p s, R [] s (process_end env p s)) :
    ∀ (p parent : GMimeObject) (s : mail_part),
    R (part_visits parent p) s (process_part env parent p s)
  | .message_part a ct m, parent, s => by
    rw [process_part_message_part, part_visits]
    exact walk_post R happ
      (walk_pre R happ (hfound parent (.message_part a ct m) s)
        (walk_pre R happ (hlast a _) (walk_message env R hnil happ hfound hlast hleaf hend m _)))
      (hend _ _)
  | .part a ct fn content, parent, s => by
    rw [process_part_leaf, part_visits]
    exact walk_post R happ (walk_pre R happ (hfound parent _ s) (hleaf parent a ct fn content _))
      (hend _ _)
  | .multipart a ct ch, parent, s => by
    rw [process_part_multipart, part_visits]
    exact walk_pre R happ (hfound parent _ s) (hend _ _)
  | .message_fragment a ct, parent, s => by
    rw [process_part_message_fragment, part_visits]
    exact walk_pre R happ (hfound parent _ s) (hend _ _)
  | .other a ct, parent, s => by
    rw [process_part_other, part_visits]
    exact walk_pre R happ (hfound parent _ s) (hend _ _)
  | .message a h m, parent, s => by
    rw [process_part_message, part_visits]
    exact walk_pre R happ (hfound parent _ s) (hend _ _)
theorem walk_message (env : Env)
    (R : List (GMimeObject × GMimeObject) → mail_part → mail_part → Prop)
    (hnil : ∀ s, R [] s s)
    (happ : ∀ l1 l2 a b c, R l1 a b → R l2 b c → R (l1 ++ l2) a c)
    (hfound : ∀ parent p s, R [] s (debug_found env parent p s))
    (hlast : ∀ (a : Nat) (s : mail_part), R [] s { s with last_part := some a })
    (hleaf : ∀ parent a ct filename content s,
      R [(parent, .part a ct filename content)] s
        (process_leaf env parent (.part a ct filename content) s))
    (hend : ∀ p s, R [] s (process_end env p s)) :
    ∀ (m : GMimeObject) (s : mail_part),
    R (message_visits m) s (g_mime_message_foreach env m s)
  | .message a h (.multipart a2 ct2 ch), s => by
    rw [message_foreach_multipart, message_visits_multipart]
    have h1 := walk_part env R hnil happ hfound hlast hleaf hend (.multipart a2 ct2 ch)
      (.message a h (.multipart a2 ct2 ch)) s
    rw [part_visits] at h1
    exact walk_pre R happ h1 (walk_children env R hnil happ hfound hlast hleaf hend ch _ _)
  | .message a h (.message a2 h2 m2), s => by
    rw [message_foreach_single env a h (.message a2 h2 m2) rfl, message_visits_single a h (.message a2 h2 m2) rfl]
    exact walk_part env R hnil happ hfound hlast hleaf hend (.message a2 h2 m2) _ s
  | .message a h (.message_part a2 ct2 m2), s => by
    rw [message_foreach_single env a h (.message_part a2 ct2 m2) rfl, message_visits_single a h (.message_part a2 ct2 m2) rfl]
    exact walk_part env R hnil happ hfound hlast hleaf hend (.message_part a2 ct2 m2) _ s
  | .message a h (.message_fragment a2 ct2), s => by
    rw [message_foreach_single env a h (.message_fragment a2 ct2) rfl, message_visits_single a h (.message_fragment a2 ct2) rfl]
    exact walk_part env R hnil happ hfound hlast hleaf hend (.message_fragment a2 ct2) _ s
  | .message a h (.part a2 ct2 fn c), s => by
    rw [message_foreach_single env a h (.part a2 ct2 fn c) rfl, message_visits_single a h (.part a2 ct2 fn c) rfl]
    exact walk_part env R hnil happ hfound hlast hleaf hend (.part a2 ct2 fn c) _ s
  | .message a h (.other a2 ct2), s => by
    rw [message_foreach_single env a h (.other a2 ct2) rfl, message_visits_single a h (.other a2 ct2) rfl]
    exact walk_part env R hnil happ hfound hlast hleaf hend (.other a2 ct2) _ s
  | .message_part _ _ _, s => by
    rw [message_foreach_not_message _ _ (by intros; simp), message_visits]; exact hnil s
  | .message_fragment _ _, s => by
    rw [message_foreach_not_message _ _ (by intros; simp), message_visits]; exact hnil s
  | .multipart _ _ _, s => by
    rw [message_foreach_not_message _ _ (by intros; simp), message_visits]; exact hnil s
  | .part _ _ _ _, s => by
    rw [message_foreach_not_message _ _ (by intros; simp), message_visits]; exact hnil s
  | .other _ _, s => by
    rw [message_foreach_not_message _ _ (by intros; simp), message_visits]; exact hnil s
theorem walk_children (env : Env)
    (R : List (GMimeObject × GMimeObject) → mail_part → mail_part → Prop)
    (hnil : ∀ s, R [] s s)
    (happ : ∀ l1 l2 a b c, R l1 a b → R l2 b c → R (l1 ++ l2) a c)
    (hfound : ∀ parent p s, R [] s (debug_found env parent p s))
    (hlast : ∀ (a : Nat) (s : mail_part), R [] s { s with last_part := some a })
    (hleaf : ∀ parent a ct filename content s,
      R [(parent, .part a ct filename content)] s
        (process_leaf env parent (.part a ct filename content) s))
    (hend : ∀ p s, R [] s (process_end env p s)) :
    ∀ (children : List GMimeObject) (mp : GMimeObject) (s : mail_part),
    R (children_visits mp children) s (multipart_foreach env mp children s)
  | [], mp, s => by rw [multipart_foreach_nil, children_visits]; exact hnil s
  | .multipart a2 ct2 ch :: rest, mp, s => by
    rw [multipart_foreach_cons_multipart, children_visits_cons_multipart]
    have h1 := walk_part env R hnil happ hfound hlast hleaf hend (.multipart a2 ct2 ch) mp s
    rw [part_visits] at h1
    exact happ _ _ _ _ _ (walk_pre R happ h1 (walk_children env R hnil happ hfound hlast hleaf hend ch _ _))
      (walk_children env R hnil happ hfound hlast hleaf hend rest mp _)
  | .message a2 h2 m2 :: rest, mp, s => by
    rw [multipart_foreach_cons_single env mp (.message a2 h2 m2) rfl, children_visits_cons_single mp (.message a2 h2 m2) rfl]
    exact happ _ _ _ _ _ (walk_part env R hnil happ hfound hlast hleaf hend (.message a2 h2 m2) mp s)
      (walk_children env R hnil happ hfound hlast hleaf hend rest mp _)
  | .message_part a2 ct2 m2 :: rest, mp, s => by
    rw [multipart_foreach_cons_single env mp (.message_part a2 ct2 m2) rfl, children_visits_cons_single mp (.message_part a2 ct2 m2) rfl]
    exact happ _ _ _ _ _ (walk_part env R hnil happ hfound hlast hleaf hend (.message_part a2 ct2 m2) mp s)
      (walk_children env R hnil happ hfound hlast hleaf hend rest mp _)
  | .message_fragment a2 ct2 :: rest, mp, s => by
    rw [multipart_foreach_cons_single env mp (.message_fragment a2 ct2) rfl, children_visits_cons_single mp (.message_fragment a2 ct2) rfl]
    exact happ _ _ _ _ _ (walk_part env R hnil happ hfound hlast hleaf hend (.message_fragment a2 ct2) mp s)
      (walk_children env R hnil happ hfound hlast hleaf hend rest mp _)
  | .part a2 ct2 fn c :: rest, mp, s => by
    rw [multipart_foreach_cons_single env mp (.part a2 ct2 fn c) rfl, children_visits_cons_single mp (.part a2 ct2 fn c) rfl]
    exact happ _ _ _ _ _ (walk_part env R hnil happ hfound hlast hleaf hend (.part a2 ct2 fn c) mp s)
      (walk_children env R hnil happ hfound hlast hleaf hend rest mp _)
  | .other a2 ct2 :: rest, mp, s => by
    rw [multipart_foreach_cons_single env mp (.other a2 ct2) rfl, children_visits_cons_single mp (.other a2 ct2) rfl]
    exact happ _ _ _ _ _ (walk_part env R hnil happ hfound hlast hleaf hend (.other a2 ct2) mp s)
      (walk_children env R hnil happ hfound hlast hleaf hend rest mp _)
end

/-! ### Keys that are not part identifiers -/

/-- A string that `cur->id` or `cur->last_node` can hold: empty, or a part identifier. -/
theorem header_key_not_id (k : String)
    (hk : k = "from" ∨ k = "to" ∨ k = "subject" ∨ k = "date") :
    k ≠ "" ∧ ∀ d r, k ≠ part_id d r := by
  refine ⟨?_, ?_⟩
  · rcases hk with h | h | h | h <;> rw [h] <;> decide
  · intro d r e
    have := part_id_ne_header d r
    rcases hk with h | h | h | h <;> rw [h] at e
    · exact this.1 e.symm
    · exact this.2.1 e.symm
    · exact this.2.2.1 e.symm
    · exact this.2.2.2.1 e.symm

/-- The walk only touches keys that are part identifiers (or the empty key that `last_node`
holds before the first leaf): any other key keeps its value. -/
theorem walk_keeps_other_keys (env : Env) (k : String) (hk0 : k ≠ "")
    (hk : ∀ d r, k ≠ part_id d r) (m : GMimeObject) (s : mail_part)
    (hid : s.id = "" ∨ ∃ d r, s.id = part_id d r)
    (hln : s.last_node = "" ∨ ∃ d r, s.last_node = part_id d r) :
    json_object_object_get (g_mime_message_foreach env m s).mail_tree k =
      json_object_object_get s.mail_tree k := by
  let ok : String → Prop := fun x => x = "" ∨ ∃ d r, x = part_id d r
  let R : List (GMimeObject × GMimeObject) → mail_part → mail_part → Prop := fun _ a b =>
    ok a.id → ok a.last_node →
      (ok b.id ∧ ok b.last_node ∧
        json_object_object_get b.mail_tree k = json_object_object_get a.mail_tree k)
  have key : R (message_visits m) s (g_mime_message_foreach env m s) := by
    apply walk_message env R
    · intro a h1 h2; exact ⟨h1, h2, rfl⟩
    · intro l1 l2 a b c hab hbc h1 h2
      obtain ⟨b1, b2, b3⟩ := hab h1 h2
      obtain ⟨c1, c2, c3⟩ := hbc b1 b2
      exact ⟨c1, c2, c3.trans b3⟩
    · intro parent p a h1 h2
      exact ⟨by simpa using h1, by simpa using h2, by simp⟩
    · intro x a h1 h2; exact ⟨h1, h2, rfl⟩
    · intro parent x ct fn content a h1 h2
      have h := process_leaf_eq env parent x ct fn content a
      simp only [] at h
      obtain ⟨_, _, e3, _, e5, e6⟩ := h
      refine ⟨Or.inr ⟨_, _, e3⟩, by rw [e5]; exact h2, ?_⟩
      have hne : ¬ k = (process_leaf env parent (.part x ct fn content) a).id := by
        rw [e3]; exact hk _ _
      have hnl : ¬ k = a.last_node := by
        rcases h2 with h2 | ⟨d, r, h2⟩ <;> rw [h2]
        · exact hk0
        · exact hk _ _
      rw [e6]
      cases part_entry env (.part x ct fn content) with
      | none =>
        simp only []
        split
        · rw [get_del, if_neg hnl]
        · rfl
      | some v =>
        simp only []
        rw [get_add, if_neg hne]
        split
        · rw [get_del, if_neg hnl]
        · rfl
    · intro p a h1 h2
      exact ⟨by simpa using h1, by simpa using h1, by simp⟩
  exact (key hid hln).2.2
/-! ### The node of a part -/

theorem filtered_body_field (env : Env) (ct : GMimeContentType) (content : List Octet) :
    (filtered_body env ct content).1 =
      if g_mime_content_type_is_type (some ct) "text" "*" = true then "body" else "file" := by
  unfold filtered_body
  split
  · split <;> rfl
  · rfl

theorem part_node_body_file (env : Env) (ct : GMimeContentType) (filename : Option String)
    (content : List Octet) (k : String) (hk : k = "body" ∨ k = "file") :
    json_object_object_get (part_node env ct filename content) k =
      if k = (filtered_body env ct content).1 then some (filtered_body env ct content).2
      else none := by
  unfold part_node
  have h1 : ¬ k = "filename" := by rcases hk with h | h <;> rw [h] <;> decide
  have h2 : ¬ k = "content-type" := by rcases hk with h | h <;> rw [h] <;> decide
  have hnil : json_object_object_get ([] : json_object String) k = none := rfl
  cases filename with
  | none => simp only [get_add, h2, hnil, if_false]
  | some fn => simp only [get_add, h1, h2, hnil, if_false]

theorem format_part_entry (env : Env) (a : Nat) (ct : GMimeContentType)
    (filename : Option String) (content : List Octet) (info : mail_part) :
    json_object_object_get
      (format_part env (.part a (some ct) filename content) info).mail_tree info.id =
      some (.object (part_node env ct filename content)) := by
  unfold format_part
  simp only [g_mime_object_get_content_type, g_mime_part_get_filename, g_mime_part_get_content,
    get_add, if_true]

/-! ### The children of a multipart/alternative -/

/-- The state after `process_part` on a leaf part, from the state before. -/
theorem process_part_leaf_eq (env : Env) (parent : GMimeObject) (a : Nat)
    (ct : Option GMimeContentType) (filename : Option String) (content : List Octet)
    (cur : mail_part) :
    let p := GMimeObject.part a ct filename content
    let r := process_part env parent p cur
    let inside := (parent.is_multipart || parent.is_message_part) = true
    let enter := inside ∧ cur.last_part = some parent.addr
    let repl := inside ∧ cur.last_part ≠ some parent.addr ∧
      g_mime_content_type_is_type (g_mime_object_get_content_type parent)
        "multipart" "alternative" = true
    r.depth = (if enter then cur.depth + 1 else cur.depth) ∧
    r.rank = (if enter then 1 else cur.rank + 1) ∧
    r.id = part_id r.depth r.rank ∧
    r.last_part = some a ∧
    r.last_node = r.id ∧
    r.mail_tree =
      (match part_entry env p with
       | some v =>
         json_object_object_add
           (if repl then json_object_object_del cur.mail_tree cur.last_node else cur.mail_tree)
           r.id v
       | none =>
         if repl then json_object_object_del cur.mail_tree cur.last_node else cur.mail_tree) := by
  intro p r inside enter repl
  have h := process_leaf_eq env parent a ct filename content (debug_found env parent p cur)
  simp only [debug_found_depth, debug_found_rank, debug_found_last_part,
    debug_found_last_node, debug_found_mail_tree] at h
  have hr : r = process_end env p (process_leaf env parent p (debug_found env parent p cur)) :=
    process_part_leaf env parent a ct filename content cur
  obtain ⟨h1, h2, h3, h4, h5, h6⟩ := h
  rw [hr]
  simp only [process_end_depth, process_end_rank, process_end_id, process_end_last_part,
    process_end_last_node, process_end_mail_tree]
  exact ⟨h1, h2, h3, rfl, trivial, h6⟩

/-- A part has an entry exactly when `is_indexable` accepts it. -/
theorem part_entry_isSome (env : Env) (p : GMimeObject) :
    (part_entry env p).isSome =
      (is_indexable (g_mime_object_get_content_type p) (g_mime_part_get_filename p)).1 := by
  unfold part_entry
  rcases hi : is_indexable (g_mime_object_get_content_type p) (g_mime_part_get_filename p)
    with ⟨b, o⟩
  cases b
  · rfl
  · cases o with
    | some c => rfl
    | none =>
      obtain ⟨c, hc⟩ := is_indexable_snd _ _ (by rw [hi])
      rw [hi] at hc
      cases hc

theorem part_entry_some_of_indexable (env : Env) (a : Nat) (ct : Option GMimeContentType)
    (filename : Option String) (content : List Octet)
    (h : (is_indexable ct filename).1 = true) :
    ∃ v, part_entry env (.part a ct filename content) = some v := by
  obtain ⟨ct1, h1⟩ := is_indexable_snd ct filename h
  exact ⟨_, part_entry_of_indexable env a ct filename content ct1 h1⟩

/-- The later children of a multipart/alternative: each one deletes the entry of the child
before it and stores its own under the next rank. -/
theorem alternative_rest (env : Env) (a : Nat) (ct : Option GMimeContentType)
    (all : List GMimeObject)
    (halt : g_mime_content_type_is_type ct "multipart" "alternative" = true) :
    ∀ (rest : List GMimeObject) (s : mail_part),
    (∀ c ∈ rest, ∃ a1 ct1 fn1 content1, c = GMimeObject.part a1 ct1 fn1 content1 ∧ a1 ≠ a ∧
      (is_indexable ct1 fn1).1 = true) →
    s.last_part ≠ some a → s.last_node = part_id s.depth s.rank →
    (∀ k, 1 ≤ k → k < s.rank → json_object_object_get s.mail_tree (part_id s.depth k) = none) →
    let t := multipart_foreach env (.multipart a ct all) rest s
    t.depth = s.depth ∧ t.rank = s.rank + rest.length ∧
    (s.id = part_id s.depth s.rank → t.id = part_id t.depth t.rank) ∧
    (∀ k, 1 ≤ k → k < t.rank → json_object_object_get t.mail_tree (part_id s.depth k) = none) ∧
    (∀ hne : rest ≠ [],
      json_object_object_get t.mail_tree (part_id s.depth t.rank) =
        part_entry env (rest.getLast hne)) ∧
    (rest = [] → t = s)
  | [], s, _, _, _, hk => by
    intro t
    have ht : t = s := multipart_foreach_nil env _ s
    rw [ht]
    exact ⟨rfl, by simp, fun h => h, hk, fun hne => absurd rfl hne, fun _ => rfl⟩
  | c :: rest, s, hc, hlp, hln, hk => by
    intro t
    obtain ⟨a1, ct1, fn1, content1, e, hne1, hidx⟩ := hc c (by simp)
    subst e
    have ht : t = multipart_foreach env (.multipart a ct all) rest
        (process_part env (.multipart a ct all) (.part a1 ct1 fn1 content1) s) :=
      multipart_foreach_cons_single env (.multipart a ct all) (.part a1 ct1 fn1 content1) rfl rest s
    have hp := process_part_leaf_eq env (.multipart a ct all) a1 ct1 fn1 content1 s
    simp only [] at hp
    obtain ⟨p1, p2, p3, p4, p5, p6⟩ := hp
    have hnot : ¬ (((GMimeObject.multipart a ct all).is_multipart ||
        (GMimeObject.multipart a ct all).is_message_part) = true ∧
        s.last_part = some (GMimeObject.multipart a ct all).addr) := by
      rintro ⟨_, h⟩; exact hlp h
    have hrepl : ((GMimeObject.multipart a ct all).is_multipart ||
        (GMimeObject.multipart a ct all).is_message_part) = true ∧
        s.last_part ≠ some (GMimeObject.multipart a ct all).addr ∧
        g_mime_content_type_is_type
          (g_mime_object_get_content_type (GMimeObject.multipart a ct all))
          "multipart" "alternative" = true := ⟨rfl, hlp, halt⟩
    rw [if_neg hnot] at p1 p2
    obtain ⟨v, hv⟩ := part_entry_some_of_indexable env a1 ct1 fn1 content1 hidx
    rw [hv] at p6
    simp only [if_pos hrepl] at p6
    rw [p1, p2] at p3
    set s1 := process_part env (.multipart a ct all) (.part a1 ct1 fn1 content1) s with hs1
    have hk1 : ∀ k, 1 ≤ k → k < s1.rank →
        json_object_object_get s1.mail_tree (part_id s1.depth k) = none := by
      intro k k1 k2
      rw [p2] at k2
      rw [p6, p3, p1, get_add]
      have hkne : ¬ part_id s.depth k = part_id s.depth (s.rank + 1) := by
        intro e; have := (part_id_inj _ _ _ _ e).2; omega
      rw [if_neg hkne, get_del, hln]
      by_cases hkr : k = s.rank
      · rw [hkr]; simp
      · have hkne2 : ¬ part_id s.depth k = part_id s.depth s.rank := by
          intro e; exact hkr (part_id_inj _ _ _ _ e).2
        rw [if_neg hkne2]
        exact hk k k1 (by omega)
    have hrec := alternative_rest env a ct all halt rest s1
      (fun c hc' => hc c (by simp [hc'])) (by rw [p4]; simpa using hne1)
      (by rw [p5, p3, p1, p2]) hk1
    simp only [] at hrec
    rw [← ht] at hrec
    obtain ⟨r1, r2, rid, r3, r4, r5⟩ := hrec
    refine ⟨by rw [r1, p1], by rw [r2, p2]; simp; omega,
      fun _ => rid (by rw [p3, p1, p2]), ?_, ?_, fun h => by simp at h⟩
    · intro k k1 k2
      have := r3 k k1 k2
      rwa [p1] at this
    · intro _
      by_cases hrest : rest = []
      · have hts : t = s1 := r5 hrest
        subst hrest
        simp only [List.getLast_singleton]
        rw [hts, p2, hv, p6, p3, get_add, if_pos rfl]
      · have := r4 hrest
        rw [p1] at this
        rw [this, List.getLast_cons hrest]

/-! ### Documents as lists -/

theorem add_fresh {α : Type} (obj : json_object α) (key : String) (val : α)
    (h : ∀ e ∈ obj, e.1 ≠ key) : json_object_object_add obj key val = obj ++ [(key, val)] := by
  unfold json_object_object_add
  rw [if_neg]
  intro hany
  obtain ⟨e, he, hk⟩ := List.any_eq_true.mp hany
  exact h e he (by simpa using hk)

theorem del_last {α : Type} (obj : json_object α) (key : String) (val : α)
    (h : ∀ e ∈ obj, e.1 ≠ key) : json_object_object_del (obj ++ [(key, val)]) key = obj := by
  unfold json_object_object_del
  rw [List.filter_append]
  have h1 : obj.filter (fun e => !decide (e.1 = key)) = obj := by
    rw [List.filter_eq_self]
    intro e he
    simpa using h e he
  rw [h1]
  simp

theorem add_headers_keys (headers : Headers) :
    ∀ e ∈ add_headers headers [],
      e.1 = "from" ∨ e.1 = "to" ∨ e.1 = "subject" ∨ e.1 = "date" := by
  unfold add_headers g_mime_message_get_all_recipients
  cases headers.sender <;> cases headers.subject <;> by_cases hr : headers.recipients = [] <;>
    simp [json_object_object_add, hr]

theorem add_headers_no_part (headers : Headers) (d r : Nat) :
    ∀ e ∈ add_headers headers [], e.1 ≠ part_id d r := by
  intro e he h
  have hk := add_headers_keys headers e he
  exact (header_key_not_id e.1 hk).2 d r h

/-! ### The debug trace -/

theorem id_lines_append : ∀ (l1 l2 : List DebugLine),
    id_lines (l1 ++ l2) = id_lines l1 ++ id_lines l2
  | [], l2 => rfl
  | .id s :: l1, l2 => by simp [id_lines, id_lines_append l1 l2]
  | .found _ _ _ :: l1, l2 => by simp [id_lines, id_lines_append l1 l2]
  | .replace _ :: l1, l2 => by simp [id_lines, id_lines_append l1 l2]
  | .eol :: l1, l2 => by simp [id_lines, id_lines_append l1 l2]

theorem found_depths_append : ∀ (l1 l2 : List DebugLine),
    found_depths (l1 ++ l2) = found_depths l1 ++ found_depths l2
  | [], l2 => rfl
  | .id s :: l1, l2 => by simp [found_depths, found_depths_append l1 l2]
  | .found _ _ _ :: l1, l2 => by simp [found_depths, found_depths_append l1 l2]
  | .replace _ :: l1, l2 => by simp [found_depths, found_depths_append l1 l2]
  | .eol :: l1, l2 => by simp [found_depths, found_depths_append l1 l2]

theorem debug_found_stdout (env : Env) (parent p : GMimeObject) (cur : mail_part) :
    ∃ extra, (debug_found env parent p cur).stdout = cur.stdout ++ extra ∧
      id_lines extra = [] ∧
      found_depths extra = (if env.debug = true then [cur.depth] else []) := by
  unfold debug_found
  rw [debug_print_stdout]
  cases env.debug
  · exact ⟨[], by simp, rfl, rfl⟩
  · exact ⟨[.found cur.depth
      ((g_mime_object_get_content_type parent).map g_mime_content_type_to_string)
      ((g_mime_object_get_content_type p).map g_mime_content_type_to_string)],
      by simp, rfl, rfl⟩

theorem process_end_stdout (env : Env) (p : GMimeObject) (cur : mail_part) :
    ∃ extra, (process_end env p cur).stdout = cur.stdout ++ extra ∧
      id_lines extra = [] ∧ found_depths extra = [] := by
  unfold process_end
  rw [debug_print_stdout]
  cases env.debug
  · exact ⟨[], by simp, rfl, rfl⟩
  · exact ⟨[.eol], by simp, rfl, rfl⟩

theorem format_part_stdout (env : Env) (p : GMimeObject) (cur : mail_part) :
    (format_part env p cur).stdout = cur.stdout := by
  unfold format_part
  split <;> rfl

theorem process_leaf_stdout (env : Env) (parent : GMimeObject) (a : Nat)
    (ct : Option GMimeContentType) (filename : Option String) (content : List Octet)
    (cur : mail_part) :
    ∃ extra,
      (process_leaf env parent (.part a ct filename content) cur).stdout = cur.stdout ++ extra ∧
      id_lines extra =
        (if env.debug = true then
          [(process_leaf env parent (.part a ct filename content) cur).id] else []) ∧
      found_depths extra = [] := by
  have hid := (process_leaf_eq env parent a ct filename content cur)
  simp only [] at hid
  obtain ⟨h1, h2, h3, _, _, _⟩ := hid
  rw [h3, h1, h2]
  unfold process_leaf
  rcases hi : is_indexable (g_mime_object_get_content_type (GMimeObject.part a ct filename content))
      (g_mime_part_get_filename (GMimeObject.part a ct filename content)) with ⟨b, o⟩
  simp only [hi]
  by_cases h1 : (parent.is_multipart || parent.is_message_part) = true
  · by_cases h2 : cur.last_part = some parent.addr
    · cases b <;> cases hd : env.debug <;>
        simp [h1, h2, format_part_stdout, debug_print_stdout, hd, id_lines, found_depths]
    · by_cases h3 : g_mime_content_type_is_type (g_mime_object_get_content_type parent)
          "multipart" "alternative" = true
      · cases b <;> cases hd : env.debug <;>
          simp [h1, h2, h3, format_part_stdout, debug_print_stdout, hd, id_lines, found_depths]
      · cases b <;> cases hd : env.debug <;>
          simp [h1, h2, h3, format_part_stdout, debug_print_stdout, hd, id_lines, found_depths]
  · cases b <;> cases hd : env.debug <;>
      simp [h1, format_part_stdout, debug_print_stdout, hd, id_lines, found_depths]
/-! ### The depth along the traversal -/

/-- Between the start and the end of any part of the traversal the depth does not decrease,
and the depths printed by the debug trace in between are non-decreasing and lie between the
depth at the start and the depth at the end. -/
theorem walk_depth (env : Env) (m : GMimeObject) (s : mail_part) :
    s.depth ≤ (g_mime_message_foreach env m s).depth ∧
    ∃ new, found_depths (g_mime_message_foreach env m s).stdout = found_depths s.stdout ++ new ∧
      (∀ x ∈ new, s.depth ≤ x ∧ x ≤ (g_mime_message_foreach env m s).depth) ∧
      new.Pairwise (· ≤ ·) := by
  let R : List (GMimeObject × GMimeObject) → mail_part → mail_part → Prop := fun _ a b =>
    a.depth ≤ b.depth ∧
    ∃ new, found_depths b.stdout = found_depths a.stdout ++ new ∧
      (∀ x ∈ new, a.depth ≤ x ∧ x ≤ b.depth) ∧ new.Pairwise (· ≤ ·)
  have key : R (message_visits m) s (g_mime_message_foreach env m s) := by
    apply walk_message env R
    · intro a
      exact ⟨le_refl _, [], by simp, by simp, List.Pairwise.nil⟩
    · rintro l1 l2 a b c ⟨h1, n1, e1, b1, p1⟩ ⟨h2, n2, e2, b2, p2⟩
      refine ⟨le_trans h1 h2, n1 ++ n2, by rw [e2, e1, List.append_assoc], ?_, ?_⟩
      · intro x hx
        rw [List.mem_append] at hx
        rcases hx with hx | hx
        · exact ⟨(b1 x hx).1, le_trans (b1 x hx).2 h2⟩
        · exact ⟨le_trans h1 (b2 x hx).1, (b2 x hx).2⟩
      · rw [List.pairwise_append]
        exact ⟨p1, p2, fun x hx y hy => le_trans (b1 x hx).2 (b2 y hy).1⟩
    · intro parent p a
      obtain ⟨extra, e1, _, e3⟩ := debug_found_stdout env parent p a
      refine ⟨by simp, found_depths extra, by rw [e1, found_depths_append], ?_, ?_⟩
      · intro x hx
        rw [e3] at hx
        split at hx
        · simp at hx; simp [hx]
        · simp at hx
      · rw [e3]; split <;> simp
    · intro x a
      exact ⟨le_refl _, [], by simp, by simp, List.Pairwise.nil⟩
    · intro parent x ct fn content a
      have h := process_leaf_eq env parent x ct fn content a
      simp only [] at h
      obtain ⟨extra, e1, _, e3⟩ := process_leaf_stdout env parent x ct fn content a
      refine ⟨?_, [], by rw [e1, found_depths_append, e3], by simp, List.Pairwise.nil⟩
      rw [h.1]; split <;> omega
    · intro p a
      obtain ⟨extra, e1, _, e3⟩ := process_end_stdout env p a
      exact ⟨by simp, [], by rw [e1, found_depths_append, e3], by simp, List.Pairwise.nil⟩
  exact key

theorem process_part_depth_le (env : Env) (parent part : GMimeObject) (cur : mail_part) :
    cur.depth ≤ (process_part env parent part cur).depth := by
  let R : List (GMimeObject × GMimeObject) → mail_part → mail_part → Prop := fun _ a b =>
    a.depth ≤ b.depth
  have key : R (part_visits parent part) cur (process_part env parent part cur) := by
    apply walk_part env R
    · intro a; exact le_refl _
    · intro l1 l2 a b c h1 h2; exact le_trans h1 h2
    · intro parent p a; simp [R]
    · intro x a; exact le_refl _
    · intro parent x ct fn content a
      have h := process_leaf_eq env parent x ct fn content a
      simp only [] at h
      show a.depth ≤ _
      rw [h.1]; split <;> omega
    · intro p a; simp [R]
  exact key

/-! ### The numbering of the leaf parts -/

theorem chain_append {a : Nat × Nat} : ∀ {l1 l2 : List (Nat × Nat)},
    List.Chain numbering_step a l1 →
    List.Chain numbering_step (l1.getLast?.getD a) l2 →
    List.Chain numbering_step a (l1 ++ l2) := by
  intro l1
  induction l1 generalizing a with
  | nil => intro l2 _ h2; simpa using h2
  | cons b l ih =>
    intro l2 h1 h2
    rw [List.chain_cons] at h1
    rw [List.cons_append, List.chain_cons]
    refine ⟨h1.1, ih h1.2 ?_⟩
    cases l with
    | nil => simpa using h2
    | cons c l' => simpa [List.getLast?_cons_cons] using h2

theorem getLast_append_getD (a : Nat × Nat) (l1 l2 : List (Nat × Nat)) :
    (l1 ++ l2).getLast?.getD a = l2.getLast?.getD (l1.getLast?.getD a) := by
  cases l2 with
  | nil => simp
  | cons b l =>
    rw [List.getLast?_append, List.getLast?_eq_getLast (b :: l) (by simp)]
    simp

theorem chain_depth_le {a : Nat × Nat} : ∀ {l : List (Nat × Nat)},
    List.Chain numbering_step a l → ∀ x ∈ l, a.1 < x.1 ∨ (a.1 = x.1 ∧ a.2 < x.2) := by
  intro l
  induction l generalizing a with
  | nil => intro _ x hx; simp at hx
  | cons b l ih =>
    intro h x hx
    rw [List.chain_cons] at h
    have hab : a.1 < b.1 ∨ (a.1 = b.1 ∧ a.2 < b.2) := by
      rcases h.1 with ⟨h1, _⟩ | ⟨h1, h2⟩
      · left; omega
      · right; exact ⟨h1.symm, by omega⟩
    rw [List.mem_cons] at hx
    rcases hx with rfl | hx
    · exact hab
    · have := ih h.2 x hx
      rcases hab with h1 | ⟨h1, h2⟩ <;> rcases this with h3 | ⟨h3, h4⟩
      · left; omega
      · left; omega
      · left; omega
      · right; exact ⟨by omega, by omega⟩

theorem chain_nodup {a : Nat × Nat} : ∀ {l : List (Nat × Nat)},
    List.Chain numbering_step a l → l.Nodup := by
  intro l
  induction l generalizing a with
  | nil => intro _; exact List.nodup_nil
  | cons b l ih =>
    intro h
    rw [List.chain_cons] at h
    rw [List.nodup_cons]
    refine ⟨fun hb => ?_, ih h.2⟩
    have := chain_depth_le h.2 b hb
    omega

theorem chain_rank {a : Nat × Nat} : ∀ {l : List (Nat × Nat)},
    List.Chain numbering_step a l → ∀ (i : Nat) (hi : i < l.length),
    l[i].2 = (if l[i].1 = a.1 then a.2 else 0) + 1 +
      (l.take i).countP (fun x => decide (x.1 = l[i].1)) := by
  intro l
  induction l generalizing a with
  | nil => intro _ i hi; simp at hi
  | cons b l ih =>
    intro h i hi
    rw [List.chain_cons] at h
    cases i with
    | zero =>
      simp only [List.getElem_cons_zero, List.take_zero, List.countP_nil]
      rcases h.1 with ⟨h1, h2⟩ | ⟨h1, h2⟩
      · rw [if_neg (by omega)]; omega
      · rw [if_pos h1]; omega
    | succ j =>
      have hj : j < l.length := by simpa using hi
      have hrec := ih h.2 j hj
      simp only [List.getElem_cons_succ, List.take_succ_cons, List.countP_cons]
      rw [hrec]
      have hge := chain_depth_le h.2 l[j] (List.getElem_mem _)
      by_cases hb : l[j].1 = b.1
      · have e1 : decide (b.1 = l[j].1) = true := decide_eq_true hb.symm
        rw [e1, if_pos hb]
        simp only [if_true]
        rcases h.1 with ⟨h1, h2⟩ | ⟨h1, h2⟩
        · rw [if_neg (by omega)]; omega
        · rw [if_pos (by omega)]; omega
      · have e1 : decide (b.1 = l[j].1) = false := decide_eq_false (fun e => hb e.symm)
        rw [e1, if_neg hb]
        have : ¬ l[j].1 = a.1 := by
          rcases h.1 with ⟨h1, h2⟩ | ⟨h1, h2⟩ <;> omega
        rw [if_neg this]
        simp only [Bool.false_eq_true, if_false]
        omega
/-! ### The entries of the leaf parts -/

theorem add_entries_append (env : Env) (tree : json_object json_value)
    (l1 l2 : List ((Nat × Nat) × GMimeObject)) :
    add_entries env tree (l1 ++ l2) = add_entries env (add_entries env tree l1) l2 := by
  unfold add_entries
  rw [List.foldl_append]

theorem add_entries_cons (env : Env) (tree : json_object json_value)
    (e : (Nat × Nat) × GMimeObject) (l : List ((Nat × Nat) × GMimeObject)) :
    add_entries env tree (e :: l) =
      add_entries env
        (match part_entry env e.2 with
         | some v => json_object_object_add tree (part_id e.1.1 e.1.2) v
         | none => tree) l := by
  unfold add_entries
  rw [List.foldl_cons]

theorem get_add_entries_other (env : Env) (k : String) :
    ∀ (l : List ((Nat × Nat) × GMimeObject)) (tree : json_object json_value),
    (∀ e ∈ l, part_id e.1.1 e.1.2 ≠ k) →
    json_object_object_get (add_entries env tree l) k = json_object_object_get tree k
  | [], tree, _ => rfl
  | e :: l, tree, h => by
    rw [add_entries_cons, get_add_entries_other env k l _ (fun x hx => h x (by simp [hx]))]
    have hk : ¬ k = part_id e.1.1 e.1.2 := fun c => h e (by simp) c.symm
    cases part_entry env e.2 with
    | none => rfl
    | some v => simp only []; rw [get_add, if_neg hk]

theorem get_add_entries_mem (env : Env) :
    ∀ (l : List ((Nat × Nat) × GMimeObject)) (tree : json_object json_value),
    (l.map (·.1)).Nodup → ∀ e ∈ l,
    json_object_object_get (add_entries env tree l) (part_id e.1.1 e.1.2) =
      (match part_entry env e.2 with
       | some v => some v
       | none => json_object_object_get tree (part_id e.1.1 e.1.2))
  | [], _, _, e, he => by simp at he
  | x :: l, tree, hnd, e, he => by
    rw [List.map_cons, List.nodup_cons] at hnd
    rw [add_entries_cons]
    rw [List.mem_cons] at he
    rcases he with rfl | he
    · rw [get_add_entries_other]
      · cases part_entry env e.2 with
        | none => rfl
        | some v => simp only []; rw [get_add, if_pos rfl]
      · intro y hy c
        have := part_id_inj _ _ _ _ c
        apply hnd.1
        rw [List.mem_map]
        exact ⟨y, hy, Prod.ext this.1 this.2⟩
    · rw [get_add_entries_mem env l _ hnd.2 e he]
      have hne : ¬ part_id e.1.1 e.1.2 = part_id x.1.1 x.1.2 := by
        intro c
        have := part_id_inj _ _ _ _ c
        apply hnd.1
        rw [List.mem_map]
        exact ⟨e, he, Prod.ext this.1 this.2⟩
      cases part_entry env e.2 with
      | some v => rfl
      | none =>
        simp only []
        cases part_entry env x.2 with
        | none => rfl
        | some w => simp only []; rw [get_add, if_neg hne]

/-- The effect of a traversal on the numbering, the debug trace and the tree: the leaf parts
visited get consecutive numberings; each identifier is printed; and, when no leaf visited has
a multipart/alternative parent, the tree gains the entries of the indexable ones. -/
theorem walk_numbering (env : Env) (m : GMimeObject) (s : mail_part) :
    ∃ ids : List (Nat × Nat),
      ids.length = (message_visits m).length ∧
      List.Chain numbering_step (s.depth, s.rank) ids ∧
      ids.getLast?.getD (s.depth, s.rank) =
        ((g_mime_message_foreach env m s).depth, (g_mime_message_foreach env m s).rank) ∧
      (env.debug = true → id_lines (g_mime_message_foreach env m s).stdout =
        id_lines s.stdout ++ ids.map (fun x => part_id x.1 x.2)) ∧
      ((∀ v ∈ message_visits m,
          g_mime_content_type_is_type (g_mime_object_get_content_type v.1)
            "multipart" "alternative" = false) →
        (g_mime_message_foreach env m s).mail_tree =
          add_entries env s.mail_tree (ids.zip ((message_visits m).map (·.2)))) := by
  let R : List (GMimeObject × GMimeObject) → mail_part → mail_part → Prop := fun l a b =>
    ∃ ids : List (Nat × Nat),
      ids.length = l.length ∧
      List.Chain numbering_step (a.depth, a.rank) ids ∧
      ids.getLast?.getD (a.depth, a.rank) = (b.depth, b.rank) ∧
      (env.debug = true → id_lines b.stdout =
        id_lines a.stdout ++ ids.map (fun x => part_id x.1 x.2)) ∧
      ((∀ v ∈ l, g_mime_content_type_is_type (g_mime_object_get_content_type v.1)
            "multipart" "alternative" = false) →
        b.mail_tree = add_entries env a.mail_tree (ids.zip (l.map (·.2))))
  have hsame : ∀ (a b : mail_part), b.depth = a.depth → b.rank = a.rank →
      b.mail_tree = a.mail_tree →
      (∃ extra, b.stdout = a.stdout ++ extra ∧ id_lines extra = []) → R [] a b := by
    intro a b h1 h2 h3 ⟨extra, h4, h5⟩
    refine ⟨[], rfl, List.Chain.nil, by simp [h1, h2], fun _ => ?_, fun _ => ?_⟩
    · rw [h4, id_lines_append, h5]; simp
    · rw [h3]; rfl
  have key : R (message_visits m) s (g_mime_message_foreach env m s) := by
    apply walk_message env R
    · intro a
      exact hsame a a rfl rfl rfl ⟨[], by simp, rfl⟩
    · rintro l1 l2 a b c ⟨i1, n1, c1, e1, d1, t1⟩ ⟨i2, n2, c2, e2, d2, t2⟩
      refine ⟨i1 ++ i2, by simp [n1, n2], ?_, ?_, ?_, ?_⟩
      · exact chain_append c1 (by rw [e1]; exact c2)
      · rw [getLast_append_getD, e1, e2]
      · intro hd
        rw [d2 hd, d1 hd, List.map_append, List.append_assoc]
      · intro hp
        rw [t2 (fun v hv => hp v (by simp [hv])), t1 (fun v hv => hp v (by simp [hv])),
          List.map_append, List.zip_append (by simp [n1]), add_entries_append]
    · intro parent p a
      obtain ⟨extra, x1, x2, _⟩ := debug_found_stdout env parent p a
      exact hsame a _ (by simp) (by simp) (by simp) ⟨extra, x1, x2⟩
    · intro x a
      exact hsame a _ rfl rfl rfl ⟨[], by simp, rfl⟩
    · intro parent x ct fn content a
      have h := process_leaf_eq env parent x ct fn content a
      simp only [] at h
      obtain ⟨h1, h2, h3, _, _, h6⟩ := h
      obtain ⟨extra, x1, x2, _⟩ := process_leaf_stdout env parent x ct fn content a
      set r := process_leaf env parent (.part x ct fn content) a with hr
      refine ⟨[(r.depth, r.rank)], rfl, ?_, by simp, fun hd => ?_, fun hp => ?_⟩
      · rw [List.chain_cons]
        refine ⟨?_, List.Chain.nil⟩
        unfold numbering_step
        simp only []
        rw [h1, h2]
        split
        · left; exact ⟨rfl, rfl⟩
        · right; exact ⟨rfl, rfl⟩
      · rw [x1, id_lines_append, x2, if_pos hd, h3]
        simp
      · have hna := hp (parent, .part x ct fn content) (by simp)
        simp only [] at hna
        have hnr : ¬ ((parent.is_multipart || parent.is_message_part) = true ∧
            a.last_part ≠ some parent.addr ∧
            g_mime_content_type_is_type (g_mime_object_get_content_type parent)
              "multipart" "alternative" = true) := by
          rintro ⟨_, _, c⟩; rw [hna] at c; cases c
        rw [h6]
        simp only [if_neg hnr, List.map_cons, List.map_nil, List.zip_cons_cons, List.zip_nil_right]
        rw [add_entries_cons]
        simp only [h3]
        cases part_entry env (.part x ct fn content) <;> rfl
    · intro p a
      obtain ⟨extra, x1, x2, _⟩ := process_end_stdout env p a
      exact hsame a _ (by simp) (by simp) (by simp) ⟨extra, x1, x2⟩
  exact key
/-! ### Messages without multipart/alternative -/

theorem no_alternative_multipart (a : Nat) (ct : Option GMimeContentType)
    (ch : List GMimeObject) (h : no_alternative (.multipart a ct ch) = true) :
    g_mime_content_type_is_type
      (g_mime_object_get_content_type (.multipart a ct ch)) "multipart" "alternative" = false ∧
    no_alternative_list ch = true := by
  rw [no_alternative] at h
  simp only [Bool.and_eq_true, Bool.not_eq_true', is_alternative, GMimeObject.is_multipart,
    Bool.true_and] at h
  exact h

mutual
theorem part_visits_parents : ∀ (p parent : GMimeObject),
    g_mime_content_type_is_type (g_mime_object_get_content_type parent)
      "multipart" "alternative" = false →
    no_alternative p = true → ∀ v ∈ part_visits parent p,
    g_mime_content_type_is_type (g_mime_object_get_content_type v.1)
      "multipart" "alternative" = false
  | .message_part a ct m, parent, _, h, v, hv => by
    rw [part_visits] at hv
    rw [no_alternative] at h
    exact message_visits_parents m h v hv
  | .part a ct fn c, parent, hp, _, v, hv => by
    rw [part_visits] at hv
    simp only [List.mem_singleton] at hv
    rw [hv]; exact hp
  | .multipart _ _ _, parent, _, _, v, hv => by rw [part_visits] at hv; simp at hv
  | .message_fragment _ _, parent, _, _, v, hv => by rw [part_visits] at hv; simp at hv
  | .other _ _, parent, _, _, v, hv => by rw [part_visits] at hv; simp at hv
  | .message _ _ _, parent, _, _, v, hv => by rw [part_visits] at hv; simp at hv
theorem message_visits_parents : ∀ (m : GMimeObject),
    no_alternative m = true → ∀ v ∈ message_visits m,
    g_mime_content_type_is_type (g_mime_object_get_content_type v.1)
      "multipart" "alternative" = false
  | .message a h (.multipart a2 ct2 ch), hn, v, hv => by
    rw [message_visits_multipart] at hv
    rw [no_alternative] at hn
    obtain ⟨h1, h2⟩ := no_alternative_multipart a2 ct2 ch hn
    exact children_visits_parents ch (.multipart a2 ct2 ch) h1 h2 v hv
  | .message a h (.message a2 h2 m2), hn, v, hv => by
    rw [message_visits_single a h (.message a2 h2 m2) rfl, part_visits] at hv; simp at hv
  | .message a h (.message_part a2 ct2 m2), hn, v, hv => by
    rw [message_visits_single a h (.message_part a2 ct2 m2) rfl] at hv
    rw [no_alternative] at hn
    exact part_visits_parents (.message_part a2 ct2 m2)
      (.message a h (.message_part a2 ct2 m2)) rfl hn v hv
  | .message a h (.message_fragment a2 ct2), hn, v, hv => by
    rw [message_visits_single a h (.message_fragment a2 ct2) rfl, part_visits] at hv
    simp at hv
  | .message a h (.part a2 ct2 fn c), hn, v, hv => by
    rw [message_visits_single a h (.part a2 ct2 fn c) rfl, part_visits] at hv
    simp only [List.mem_singleton] at hv
    rw [hv]; rfl
  | .message a h (.other a2 ct2), hn, v, hv => by
    rw [message_visits_single a h (.other a2 ct2) rfl, part_visits] at hv; simp at hv
  | .message_part _ _ _, _, v, hv => by rw [message_visits] at hv; simp at hv
  | .message_fragment _ _, _, v, hv => by rw [message_visits] at hv; simp at hv
  | .multipart _ _ _, _, v, hv => by rw [message_visits] at hv; simp at hv
  | .part _ _ _ _, _, v, hv => by rw [message_visits] at hv; simp at hv
  | .other _ _, _, v, hv => by rw [message_visits] at hv; simp at hv
theorem children_visits_parents : ∀ (children : List GMimeObject) (mp : GMimeObject),
    g_mime_content_type_is_type (g_mime_object_get_content_type mp)
      "multipart" "alternative" = false →
    no_alternative_list children = true → ∀ v ∈ children_visits mp children,
    g_mime_content_type_is_type (g_mime_object_get_content_type v.1)
      "multipart" "alternative" = false
  | [], mp, _, _, v, hv => by rw [children_visits] at hv; simp at hv
  | .multipart a2 ct2 ch :: rest, mp, hp, hn, v, hv => by
    rw [children_visits_cons_multipart, List.mem_append] at hv
    rw [no_alternative_list, Bool.and_eq_true] at hn
    obtain ⟨h1, h2⟩ := no_alternative_multipart a2 ct2 ch hn.1
    rcases hv with hv | hv
    · exact children_visits_parents ch (.multipart a2 ct2 ch) h1 h2 v hv
    · exact children_visits_parents rest mp hp hn.2 v hv
  | .message a2 h2 m2 :: rest, mp, hp, hn, v, hv => by
    rw [children_visits_cons_single mp (.message a2 h2 m2) rfl, List.mem_append] at hv
    rw [no_alternative_list, Bool.and_eq_true] at hn
    rcases hv with hv | hv
    · rw [part_visits] at hv; simp at hv
    · exact children_visits_parents rest mp hp hn.2 v hv
  | .message_part a2 ct2 m2 :: rest, mp, hp, hn, v, hv => by
    rw [children_visits_cons_single mp (.message_part a2 ct2 m2) rfl, List.mem_append] at hv
    rw [no_alternative_list, Bool.and_eq_true] at hn
    rcases hv with hv | hv
    · exact part_visits_parents (.message_part a2 ct2 m2) mp hp hn.1 v hv
    · exact children_visits_parents rest mp hp hn.2 v hv
  | .message_fragment a2 ct2 :: rest, mp, hp, hn, v, hv => by
    rw [children_visits_cons_single mp (.message_fragment a2 ct2) rfl, List.mem_append] at hv
    rw [no_alternative_list, Bool.and_eq_true] at hn
    rcases hv with hv | hv
    · rw [part_visits] at hv; simp at hv
    · exact children_visits_parents rest mp hp hn.2 v hv
  | .part a2 ct2 fn c :: rest, mp, hp, hn, v, hv => by
    rw [children_visits_cons_single mp (.part a2 ct2 fn c) rfl, List.mem_append] at hv
    rw [no_alternative_list, Bool.and_eq_true] at hn
    rcases hv with hv | hv
    · exact part_visits_parents (.part a2 ct2 fn c) mp hp hn.1 v hv
    · exact children_visits_parents rest mp hp hn.2 v hv
  | .other a2 ct2 :: rest, mp, hp, hn, v, hv => by
    rw [children_visits_cons_single mp (.other a2 ct2) rfl, List.mem_append] at hv
    rw [no_alternative_list, Bool.and_eq_true] at hn
    rcases hv with hv | hv
    · rw [part_visits] at hv; simp at hv
    · exact children_visits_parents rest mp hp hn.2 v hv
end
theorem get_none_of_no_key {α : Type} (obj : json_object α) (k : String)
    (h : ∀ e ∈ obj, e.1 ≠ k) : json_object_object_get obj k = none := by
  unfold json_object_object_get
  rw [Option.map_eq_none', List.find?_eq_none]
  intro e he
  simpa using h e he

/-! ### The identifiers in the debug trace -/

theorem id_lines_process_part_leaf (conv : String → Option (List Octet → List Octet))
    (parent : GMimeObject) (a : Nat) (ct : Option GMimeContentType)
    (filename : Option String) (content : List Octet) (s : mail_part) :
    id_lines (process_part ⟨true, conv⟩ parent (.part a ct filename content) s).stdout =
      id_lines s.stdout ++
        [part_id (process_part ⟨true, conv⟩ parent (.part a ct filename content) s).depth
          (process_part ⟨true, conv⟩ parent (.part a ct filename content) s).rank] := by
  have hid := (process_part_leaf_eq ⟨true, conv⟩ parent a ct filename content s).2.2.1
  rw [← hid, process_part_leaf]
  obtain ⟨x1, e1, i1, _⟩ := process_end_stdout ⟨true, conv⟩ (.part a ct filename content)
    (process_leaf ⟨true, conv⟩ parent (.part a ct filename content)
      (debug_found ⟨true, conv⟩ parent (.part a ct filename content) s))
  obtain ⟨x2, e2, i2, _⟩ := process_leaf_stdout ⟨true, conv⟩ parent a ct filename content
    (debug_found ⟨true, conv⟩ parent (.part a ct filename content) s)
  obtain ⟨x3, e3, i3, _⟩ := debug_found_stdout ⟨true, conv⟩ parent
    (.part a ct filename content) s
  rw [e1, e2, e3]
  simp only [id_lines_append, i1, i2, i3, process_end_id, if_true, List.append_nil]

theorem id_lines_process_part_multipart (env : Env) (parent : GMimeObject) (a : Nat)
    (ct : Option GMimeContentType) (children : List GMimeObject) (s : mail_part) :
    id_lines (process_part env parent (.multipart a ct children) s).stdout =
      id_lines s.stdout := by
  rw [process_part_multipart]
  obtain ⟨x1, e1, i1, _⟩ := process_end_stdout env (.multipart a ct children)
    (debug_found env parent (.multipart a ct children) s)
  obtain ⟨x3, e3, i3, _⟩ := debug_found_stdout env parent (.multipart a ct children) s
  rw [e1, e3]
  simp only [id_lines_append, i1, i3, List.append_nil]

/-! ### The order of the identifiers -/

theorem chain_pairwise_lt {a : Nat × Nat} : ∀ {l : List (Nat × Nat)},
    List.Chain numbering_step a l → (∀ x ∈ l, numbering_lt a x) ∧ l.Pairwise numbering_lt := by
  intro l
  induction l generalizing a with
  | nil => intro _; exact ⟨by simp, List.Pairwise.nil⟩
  | cons b l ih =>
    intro h
    refine ⟨fun x hx => chain_depth_le h x hx, ?_⟩
    rw [List.chain_cons] at h
    rw [List.pairwise_cons]
    exact ⟨(ih h.2).1, (ih h.2).2⟩

theorem part_id_nodup (ids : List (Nat × Nat)) (h : ids.Nodup) :
    (ids.map (fun x => part_id x.1 x.2)).Nodup := by
  apply List.Nodup.map _ h
  intro x y e
  have := part_id_inj _ _ _ _ e
  exact Prod.ext this.1 this.2

theorem numbering_lt_ne {x y : Nat × Nat} (h : numbering_lt x y) :
    part_id x.1 x.2 ≠ part_id y.1 y.2 := by
  intro e
  have := part_id_inj _ _ _ _ e
  unfold numbering_lt at h
  omega

/-- A call of `process_part` on any part leaves the numbering (depth, rank) where it was or
moves it up in the lexicographic order. -/
theorem process_part_numbering (env : Env) (parent part : GMimeObject) (s : mail_part) :
    ((process_part env parent part s).depth, (process_part env parent part s).rank) =
      (s.depth, s.rank) ∨
    numbering_lt (s.depth, s.rank)
      ((process_part env parent part s).depth, (process_part env parent part s).rank) := by
  let R : List (GMimeObject × GMimeObject) → mail_part → mail_part → Prop := fun _ a b =>
    (b.depth, b.rank) = (a.depth, a.rank) ∨ numbering_lt (a.depth, a.rank) (b.depth, b.rank)
  have key : R (part_visits parent part) s (process_part env parent part s) := by
    apply walk_part env R
    · intro a; exact Or.inl rfl
    · intro l1 l2 a b c h1 h2
      rcases h1 with h1 | h1
      · rcases h2 with h2 | h2
        · left; rw [h2, h1]
        · right; rw [← h1]; exact h2
      · rcases h2 with h2 | h2
        · right; rw [h2]; exact h1
        · right
          unfold numbering_lt at h1 h2 ⊢
          simp only at h1 h2 ⊢
          omega
    · intro parent p a; left; simp
    · intro x a; exact Or.inl rfl
    · intro parent x ct fn content a
      have h := process_leaf_eq env parent x ct fn content a
      simp only [] at h
      right
      unfold numbering_lt
      simp only
      rw [h.1, h.2.1]
      split
      · left; omega
      · right; exact ⟨rfl, by omega⟩
    · intro p a; left; simp
  exact key

/-! # The claims -/

/-- C1. For a multipart/alternative node whose children are N >= 1 leaf parts, all indexable:
once `process_part` has visited the node and then its children in order, from any state and
under any parent, the k-th child was given the identifier `part-<d+1>.<k>` (d the depth
before), the document holds the entry of the last child under `part-<d+1>.<N>`, and it holds
nothing under the identifiers of the first N-1 children. The children are distinct objects
from the node (their addresses differ from its address). -/
theorem alternative_keeps_last_child (env : Env) (parent : GMimeObject) (a : Nat)
    (ct : Option GMimeContentType) (children : List GMimeObject) (cur : mail_part)
    (halt : g_mime_content_type_is_type ct "multipart" "alternative" = true)
    (hne : children ≠ [])
    (hleaf : ∀ c ∈ children, ∃ a1 ct1 fn1 content1,
      c = GMimeObject.part a1 ct1 fn1 content1 ∧ a1 ≠ a ∧ (is_indexable ct1 fn1).1 = true) :
    (∃ v, part_entry env (children.getLast hne) = some v ∧
      json_object_object_get
        (multipart_foreach env (.multipart a ct children) children
          (process_part env parent (.multipart a ct children) cur)).mail_tree
        (part_id (cur.depth + 1) children.length) = some v) ∧
    (∀ k, 1 ≤ k → k < children.length →
      json_object_object_get
        (multipart_foreach env (.multipart a ct children) children
          (process_part env parent (.multipart a ct children) cur)).mail_tree
        (part_id (cur.depth + 1) k) = none) ∧
    (∀ k, k < children.length →
      (multipart_foreach env (.multipart a ct children) (children.take (k + 1))
        (process_part env parent (.multipart a ct children) cur)).id =
        part_id (cur.depth + 1) (k + 1)) := by
  cases children with
  | nil => exact absurd rfl hne
  | cons c rest =>
    obtain ⟨a1, ct1, fn1, content1, e, hne1, hidx⟩ := hleaf c (by simp)
    subst e
    generalize hall : (GMimeObject.part a1 ct1 fn1 content1 :: rest) = all at hne hleaf ⊢
    set s0 := process_part env parent (.multipart a ct all) cur with hs0
    have e0 : s0 = process_end env (.multipart a ct all)
        (debug_found env parent (.multipart a ct all) cur) :=
      process_part_multipart env parent a ct all cur
    have hp := process_part_leaf_eq env (.multipart a ct all) a1 ct1 fn1 content1 s0
    simp only [] at hp
    have henter : ((GMimeObject.multipart a ct all).is_multipart ||
        (GMimeObject.multipart a ct all).is_message_part) = true ∧
        s0.last_part = some (GMimeObject.multipart a ct all).addr := by
      refine ⟨rfl, ?_⟩
      rw [e0, process_end_last_part]
    have hnrepl : ¬ (((GMimeObject.multipart a ct all).is_multipart ||
        (GMimeObject.multipart a ct all).is_message_part) = true ∧
        s0.last_part ≠ some (GMimeObject.multipart a ct all).addr ∧
        g_mime_content_type_is_type
          (g_mime_object_get_content_type (GMimeObject.multipart a ct all))
          "multipart" "alternative" = true) := by
      rintro ⟨_, h, _⟩; exact h henter.2
    obtain ⟨v, hv⟩ := part_entry_some_of_indexable env a1 ct1 fn1 content1 hidx
    rw [hv] at hp
    simp only [if_pos henter, if_neg hnrepl] at hp
    obtain ⟨p1, p2, p3, p4, p5, p6⟩ := hp
    have hd0 : s0.depth = cur.depth := by rw [e0]; simp
    rw [hd0] at p1
    rw [p1, p2] at p3
    set s1 := process_part env (.multipart a ct all) (.part a1 ct1 fn1 content1) s0 with hs1
    have hstep : ∀ l : List GMimeObject,
        multipart_foreach env (.multipart a ct all) (.part a1 ct1 fn1 content1 :: l) s0 =
          multipart_foreach env (.multipart a ct all) l s1 := fun l =>
      multipart_foreach_cons_single env (.multipart a ct all) (.part a1 ct1 fn1 content1)
        rfl l s0
    have hrest : ∀ l : List GMimeObject, (∀ c ∈ l, c ∈ rest) →
        let t := multipart_foreach env (.multipart a ct all) l s1
        t.depth = s1.depth ∧ t.rank = s1.rank + l.length ∧
        (s1.id = part_id s1.depth s1.rank → t.id = part_id t.depth t.rank) ∧
        (∀ k, 1 ≤ k → k < t.rank →
          json_object_object_get t.mail_tree (part_id s1.depth k) = none) ∧
        (∀ hne : l ≠ [],
          json_object_object_get t.mail_tree (part_id s1.depth t.rank) =
            part_entry env (l.getLast hne)) ∧
        (l = [] → t = s1) := fun l hl =>
      alternative_rest env a ct all halt l s1
        (fun c hc => hleaf c (by rw [← hall]; simp [hl c hc]))
        (by rw [p4]; simpa using hne1) (by rw [p5, p3, p1, p2])
        (by intro k k1 k2; rw [p2] at k2; omega)
    subst hall
    refine ⟨?_, ?_, ?_⟩
    · rw [hstep]
      obtain ⟨r1, r2, _, _, r4, r5⟩ := hrest rest (fun _ h => h)
      by_cases hr : rest = []
      · subst hr
        refine ⟨v, by simpa using hv, ?_⟩
        rw [r5 rfl, p6, p3, get_add]
        simp
      · obtain ⟨w, hw⟩ : ∃ w, part_entry env (rest.getLast hr) = some w := by
          obtain ⟨a2, ct2, fn2, content2, e2, _, hidx2⟩ :=
            hleaf (rest.getLast hr) (by simp [List.getLast_mem])
          rw [e2]
          exact part_entry_some_of_indexable env a2 ct2 fn2 content2 hidx2
        refine ⟨w, by rw [List.getLast_cons hr]; exact hw, ?_⟩
        have := r4 hr
        rw [r2, p1, p2, hw] at this
        rw [← this]
        congr 2
        simp; omega
    · intro k k1 k2
      rw [hstep]
      obtain ⟨r1, r2, _, r3, _, _⟩ := hrest rest (fun _ h => h)
      have := r3 k k1 (by rw [r2, p2]; simp at k2; omega)
      rwa [p1] at this
    · intro k hk
      rw [List.take_succ_cons, hstep]
      obtain ⟨r1, r2, rid, _, _, _⟩ := hrest (rest.take k) (fun c hc => List.mem_of_mem_take hc)
      rw [rid (by rw [p3, p1, p2]), r1, r2, p1, p2]
      congr 1
      simp at hk
      rw [List.length_take]
      omega

/-- C1, at the node multipart/alternative[text/plain, text/html] met first in a message: the
document holds nothing under `part-1.1`. -/
theorem alternative_keeps_last_child_witness :
    g_mime_content_type_is_type (some ⟨"multipart", "alternative", []⟩)
      "multipart" "alternative" = true ∧
    json_object_object_get
      (multipart_foreach ⟨false, fun _ => none⟩
        (.multipart 3 (some ⟨"multipart", "alternative", []⟩)
          [.part 4 (some ⟨"text", "plain", []⟩) none [104, 105],
           .part 5 (some ⟨"text", "html", []⟩) none [60, 112, 62]])
        [.part 4 (some ⟨"text", "plain", []⟩) none [104, 105],
         .part 5 (some ⟨"text", "html", []⟩) none [60, 112, 62]]
        (process_part ⟨false, fun _ => none⟩ (.other 1 none)
          (.multipart 3 (some ⟨"multipart", "alternative", []⟩)
            [.part 4 (some ⟨"text", "plain", []⟩) none [104, 105],
             .part 5 (some ⟨"text", "html", []⟩) none [60, 112, 62]])
          rock_init)).mail_tree
      (part_id (rock_init.depth + 1) 1) = none :=
  ⟨by decide,
    (alternative_keeps_last_child ⟨false, fun _ => none⟩ (.other 1 none) 3
      (some ⟨"multipart", "alternative", []⟩)
      [.part 4 (some ⟨"text", "plain", []⟩) none [104, 105],
       .part 5 (some ⟨"text", "html", []⟩) none [60, 112, 62]]
      rock_init (by decide) (by simp)
      (fun c hc => by
        simp only [List.mem_cons, List.mem_singleton, List.not_mem_nil, or_false] at hc
        rcases hc with rfl | rfl
        · exact ⟨4, _, _, _, rfl, by decide, by decide⟩
        · exact ⟨5, _, _, _, rfl, by decide, by decide⟩)).2.1 1 (by decide) (by decide)⟩

theorem walk_mixed_alternative_pdf (env : Env) (headers : Headers) (fn1 fn2 fn3 : Option String)
    (c1 c2 c3 : List Octet) (tree : json_object json_value) :
    (g_mime_message_foreach env (mixed_alternative_pdf headers fn1 fn2 fn3 c1 c2 c3)
      { rock_init with mail_tree := tree }).mail_tree =
    json_object_object_add
      (json_object_object_add
        (json_object_object_del
          (json_object_object_add tree "part-1.1"
            (.object (part_node env ⟨"text", "plain", []⟩ fn1 c1))) "part-1.1")
        "part-1.2" (.object (part_node env ⟨"text", "html", []⟩ fn2 c2)))
      "part-1.3" (.object (part_node env ⟨"application", "pdf", []⟩ fn3 c3)) := by
  unfold mixed_alternative_pdf
  rw [message_foreach_multipart, multipart_foreach_cons_multipart,
    multipart_foreach_cons_single env _ (.part 4 _ _ _) rfl,
    multipart_foreach_cons_single env _ (.part 5 _ _ _) rfl,
    multipart_foreach_cons_single env _ (.part 6 _ _ _) rfl,
    multipart_foreach_nil, multipart_foreach_nil]
  simp only [process_part_multipart, process_part_leaf]
  rcases env with ⟨_ | _, conv⟩ <;> with_unfolding_all rfl

/-- C2. For the message multipart/mixed[ multipart/alternative[text/plain, text/html],
application/pdf ], whatever its headers, file names and bodies, the document is the header
keys (`from`, `to`, `subject`, `date`) followed by exactly two part entries: `part-1.2`, whose
content type is `text/html`, and `part-1.3`, whose content type is `application/pdf`. There is
no entry for the text/plain alternative. -/
theorem mixed_alternative_pdf_document (env : Env) (headers : Headers)
    (fn1 fn2 fn3 : Option String) (c1 c2 c3 : List Octet) :
    process_mail env (mixed_alternative_pdf headers fn1 fn2 fn3 c1 c2 c3) =
      add_headers headers [] ++
        [("part-1.2", .object (part_node env ⟨"text", "html", []⟩ fn2 c2)),
         ("part-1.3", .object (part_node env ⟨"application", "pdf", []⟩ fn3 c3))] ∧
    (∀ e ∈ add_headers headers [],
      e.1 = "from" ∨ e.1 = "to" ∨ e.1 = "subject" ∨ e.1 = "date") ∧
    json_object_object_get (part_node env ⟨"text", "html", []⟩ fn2 c2) "content-type" =
      some "text/html" ∧
    json_object_object_get (part_node env ⟨"application", "pdf", []⟩ fn3 c3) "content-type" =
      some "application/pdf" := by
  refine ⟨?_, add_headers_keys headers, part_node_content_type _ _ _ _,
    part_node_content_type _ _ _ _⟩
  have h11 : ∀ e ∈ add_headers headers [], e.1 ≠ "part-1.1" := add_headers_no_part headers 1 1
  have h12 : ∀ e ∈ add_headers headers [], e.1 ≠ "part-1.2" := add_headers_no_part headers 1 2
  have h13 : ∀ e ∈ add_headers headers [], e.1 ≠ "part-1.3" := add_headers_no_part headers 1 3
  unfold process_mail process_mail_state
  have hh : message_headers (mixed_alternative_pdf headers fn1 fn2 fn3 c1 c2 c3) = headers := rfl
  rw [hh, walk_mixed_alternative_pdf, add_fresh _ _ _ h11, del_last _ _ _ h11,
    add_fresh _ _ _ h12, add_fresh]
  · simp
  · intro e he
    rw [List.mem_append] at he
    rcases he with he | he
    · exact h13 e he
    · simp at he; rw [he]; show "part-1.2" ≠ "part-1.3"; decide

/-- C3 fails as stated: in multipart/mixed[ image/png, text/plain ] the text/plain part is the
only indexed leaf, hence the first of the indexed leaves of its depth, yet its entry is keyed
`part-1.2`: the image/png part, which is not indexed, took rank 1. -/
theorem rank_counts_unindexed_leaves :
    process_mail ⟨false, fun _ => none⟩ mixed_png_text =
      [("date", .int64 0),
       ("part-1.2", .object [("content-type", "text/plain"), ("body", "hi")])] ∧
    json_object_object_get (process_mail ⟨false, fun _ => none⟩ mixed_png_text) "part-1.1" =
      none := by
  constructor <;> decide

/-- C3, amended. For every message that has no multipart/alternative node, the leaf parts
visited by the traversal get pairwise distinct identifiers `part-<depth>.<rank>` (the ones the
debug trace prints, in order), where rank is the leaf's 1-based order among all the leaf
parts, indexable or not, that were given the same depth. The final document holds under the
identifier of each leaf exactly the entry of that leaf when it is indexable and nothing when
it is not (a part has an entry exactly when `is_indexable` accepts it), and every other key of
the document is a header key with its header value. -/
theorem leaf_entries_without_alternative (env : Env) (message : GMimeObject)
    (h : no_alternative message = true) :
    ∃ ids : List (Nat × Nat),
      ids.length = (message_visits message).length ∧
      (env.debug = true →
        id_lines (process_mail_state env message).stdout =
          ids.map (fun x => part_id x.1 x.2)) ∧
      ids.Nodup ∧
      (∀ (i : Nat) (hi : i < ids.length),
        ids[i].2 = 1 + (ids.take i).countP (fun x => decide (x.1 = ids[i].1))) ∧
      (∀ e ∈ ids.zip (message_visits message),
        json_object_object_get (process_mail env message) (part_id e.1.1 e.1.2) =
          part_entry env e.2.2) ∧
      (∀ k, (∀ x ∈ ids, k ≠ part_id x.1 x.2) →
        json_object_object_get (process_mail env message) k =
          json_object_object_get (add_headers (message_headers message) []) k) ∧
      (∀ x ∈ ids,
        json_object_object_get (add_headers (message_headers message) [])
          (part_id x.1 x.2) = none) ∧
      (∀ p, (part_entry env p).isSome =
        (is_indexable (g_mime_object_get_content_type p) (g_mime_part_get_filename p)).1) := by
  obtain ⟨ids, n, c, _, d, t⟩ := walk_numbering env message
    { rock_init with mail_tree := add_headers (message_headers message) [] }
  have ht := t (message_visits_parents message h)
  have hH : ∀ (a b : Nat), json_object_object_get (add_headers (message_headers message) [])
      (part_id a b) = none := fun a b =>
    get_none_of_no_key _ _ (add_headers_no_part (message_headers message) a b)
  have hnd : ids.Nodup := chain_nodup c
  have htree : process_mail env message =
      add_entries env (add_headers (message_headers message) [])
        (ids.zip ((message_visits message).map (·.2))) := ht
  refine ⟨ids, n, ?_, hnd, ?_, ?_, ?_, fun x _ => hH _ _, part_entry_isSome env⟩
  · intro hd
    have := d hd
    simpa [process_mail_state, id_lines, rock_init] using this
  · intro i hi
    have := chain_rank c i hi
    simp only [ite_self, rock_init] at this
    omega
  · intro e he
    rw [htree]
    have hmem : (e.1, e.2.2) ∈ ids.zip ((message_visits message).map (·.2)) := by
      rw [List.zip_map_right, List.mem_map]
      exact ⟨e, he, rfl⟩
    have hfst : ((ids.zip ((message_visits message).map (·.2))).map (·.1)).Nodup := by
      rw [List.map_fst_zip _ _ (by simp [n])]
      exact hnd
    have := get_add_entries_mem env _ (add_headers (message_headers message) []) hfst _ hmem
    simp only [] at this
    rw [this, hH]
    cases part_entry env e.2.2 <;> rfl
  · intro k hk
    rw [htree]
    apply get_add_entries_other
    intro e he c
    exact hk e.1 (List.of_mem_zip he).1 c.symm

/-- C3 amended, at multipart/mixed[ image/png, text/plain ]. -/
theorem leaf_entries_without_alternative_witness :
    no_alternative mixed_png_text = true ∧
    ∃ ids : List (Nat × Nat),
      ids.length = (message_visits mixed_png_text).length ∧
      ids.Nodup ∧
      (∀ e ∈ ids.zip (message_visits mixed_png_text),
        json_object_object_get (process_mail ⟨true, fun _ => none⟩ mixed_png_text)
          (part_id e.1.1 e.1.2) = part_entry ⟨true, fun _ => none⟩ e.2.2) :=
  ⟨by decide,
    let ⟨ids, h1, _, h3, _, h5, _⟩ :=
      leaf_entries_without_alternative ⟨true, fun _ => none⟩ mixed_png_text (by decide)
    ⟨ids, h1, h3, h5⟩⟩

/-- C4. For a part declared `application/octet-stream`, `is_indexable` returns true exactly
when the text after the last `.` of the file name equals, ignoring ASCII case, a suffix of the
mappings table; the working content type is then the first pair of the first row that has such
a suffix. `report.pdf` and `REPORT.PDF` become `application/pdf` and are indexable;
`report.xyz`, a name without a dot and an absent name are not indexable. -/
theorem octet_stream_indexable_iff_suffix (ct : GMimeContentType) (filename : Option String)
    (h : g_mime_content_type_is_type (some ct) "application" "octet-stream" = true) :
    ((is_indexable (some ct) filename).1 = true ↔
      ∃ fn suf, filename = some fn ∧ is_suffix_of suf fn ∧ ∃ m ∈ mappings, row_has_suffix suf m) ∧
    (∀ fn suf before m after, filename = some fn → is_suffix_of suf fn →
      mappings = before ++ m :: after → (∀ x ∈ before, ¬ row_has_suffix suf x) →
      row_has_suffix suf m →
      ∃ c, m.ct.head? = some c ∧
        (is_indexable (some ct) filename).2 =
          some { ct with type := c.type, subtype := c.subtype }) ∧
    is_indexable (some ct) (some "report.pdf") =
      (true, some { ct with type := "application", subtype := "pdf" }) ∧
    is_indexable (some ct) (some "REPORT.PDF") =
      (true, some { ct with type := "application", subtype := "pdf" }) ∧
    (is_indexable (some ct) (some "report.xyz")).1 = false ∧
    (is_indexable (some ct) (some "report")).1 = false ∧
    (is_indexable (some ct) none).1 = false := by
  have hun := octet_stream_not_in_mappings ct h
  refine ⟨?_, ?_, ?_, ?_, ?_, ?_, ?_⟩
  · unfold is_indexable
    simp only [h, if_true]
    rcases get_content_type_from_filename_cases ct filename with
      ⟨e, r⟩ | ⟨fn, e, n, r⟩ | ⟨fn, suf, e, s, n, r⟩ | ⟨fn, suf, before, m, after, c, e, s, l, nb, hm, hc, r⟩
    · rw [r]; simp [e]
    · rw [r, e]
      simp only [hun, Bool.false_eq_true, false_iff]
      rintro ⟨fn1, suf1, e1, s1, _⟩
      cases e1
      exact n ⟨suf1, s1⟩
    · rw [r, e]
      simp only [hun, Bool.false_eq_true, false_iff]
      rintro ⟨fn1, suf1, e1, s1, m, hm, hr⟩
      cases e1
      rw [is_suffix_of_unique _ _ _ s1 s] at hr
      exact n m hm hr
    · have hmem : m ∈ mappings := by rw [l]; simp
      rw [r]
      simp only [first_pair_in_mappings ct m hmem c hc, true_iff]
      exact ⟨fn, suf, e, s, m, hmem, hm⟩
  · intro fn suf before m after e s l nb hm
    have hmem : m ∈ mappings := by rw [l]; simp
    obtain ⟨c, hc, _⟩ := rows_have_pairs m hmem
    refine ⟨c, hc, ?_⟩
    unfold is_indexable
    simp only [h, if_true]
    rcases get_content_type_from_filename_cases ct filename with
      ⟨e1, r⟩ | ⟨fn1, e1, n, r⟩ | ⟨fn1, suf1, e1, s1, n, r⟩ |
      ⟨fn1, suf1, before1, m1, after1, c1, e1, s1, l1, nb1, hm1, hc1, r⟩
    · rw [e] at e1; cases e1
    · rw [e] at e1; cases e1
      exact absurd ⟨suf, s⟩ n
    · rw [e] at e1; cases e1
      rw [is_suffix_of_unique _ _ _ s1 s] at n
      exact absurd hm (n m hmem)
    · rw [e] at e1; cases e1
      rw [is_suffix_of_unique _ _ _ s1 s] at nb1 hm1
      have : m = m1 := first_match_unique (l.symm.trans l1) nb hm nb1 hm1
      subst this
      rw [hc] at hc1; cases hc1
      rw [r]
  · unfold is_indexable
    simp only [h, if_true]
    rfl
  · unfold is_indexable
    simp only [h, if_true]
    rfl
  · unfold is_indexable
    simp only [h, if_true]
    show (in_mappings ct, some ct).1 = false
    exact hun
  · unfold is_indexable
    simp only [h, if_true]
    show (in_mappings ct, some ct).1 = false
    exact hun
  · unfold is_indexable
    simp only [h, if_true]
    rfl

/-- C4, at `application/octet-stream` with the file name `report.pdf`. -/
theorem octet_stream_indexable_iff_suffix_witness :
    g_mime_content_type_is_type (some ⟨"application", "octet-stream", []⟩)
      "application" "octet-stream" = true ∧
    is_indexable (some ⟨"application", "octet-stream", []⟩) (some "report.pdf") =
      (true, some ⟨"application", "pdf", []⟩) :=
  ⟨by decide, (octet_stream_indexable_iff_suffix ⟨"application", "octet-stream", []⟩
    (some "report.pdf") (by decide)).2.2.1⟩

/-- C5. For a declared content type other than `application/octet-stream`, `is_indexable`
returns true exactly when the content type is present and its (type, subtype) is a pair listed
in the mappings table. Media types compare ignoring ASCII case, as
`g_mime_content_type_is_type` does, and every listed pair is in lower case: for a type and
subtype written in lower case this is plain membership in the list of pairs. An absent content
type is never indexable, and the file name does not change the result. -/
theorem declared_type_indexable_iff_listed (content_type : Option GMimeContentType)
    (filename : Option String)
    (h : g_mime_content_type_is_type content_type "application" "octet-stream" = false) :
    ((is_indexable content_type filename).1 = true ↔
      ∃ ct, content_type = some ct ∧ (lowered ct.type, lowered ct.subtype) ∈ listed_pairs) ∧
    (∀ ct, content_type = some ct → lowered ct.type = ct.type →
      lowered ct.subtype = ct.subtype →
      ((is_indexable content_type filename).1 = true ↔ (ct.type, ct.subtype) ∈ listed_pairs)) ∧
    (is_indexable none filename).1 = false ∧
    (∀ filename1, is_indexable content_type filename1 = is_indexable content_type filename) := by
  cases content_type with
  | none =>
    refine ⟨?_, ?_, rfl, fun _ => rfl⟩
    · simp [is_indexable]
    · intro ct e; cases e
  | some ct =>
    have hiff : (is_indexable (some ct) filename).1 = true ↔
        (lowered ct.type, lowered ct.subtype) ∈ listed_pairs := by
      unfold is_indexable
      simp only [h, Bool.false_eq_true, if_false]
      rw [in_mappings_iff]
    refine ⟨?_, ?_, rfl, ?_⟩
    · rw [hiff]
      constructor
      · intro hl; exact ⟨ct, rfl, hl⟩
      · rintro ⟨c, e, hl⟩; cases e; exact hl
    · intro c e h1 h2
      cases e
      rw [hiff, h1, h2]
    · intro filename1
      unfold is_indexable
      simp only [h, Bool.false_eq_true, if_false]

/-- C5, at `text/html` with the file name `x.pdf`. -/
theorem declared_type_indexable_iff_listed_witness :
    g_mime_content_type_is_type (some ⟨"text", "html", []⟩) "application" "octet-stream" = false ∧
    ((is_indexable (some ⟨"text", "html", []⟩) (some "x.pdf")).1 = true ↔
      ∃ ct, some (⟨"text", "html", []⟩ : GMimeContentType) = some ct ∧
        (lowered ct.type, lowered ct.subtype) ∈ listed_pairs) :=
  ⟨by decide, (declared_type_indexable_iff_listed (some ⟨"text", "html", []⟩) (some "x.pdf")
    (by decide)).1⟩

/-- C6 fails as stated: for `application/octet-stream` with the file name `report.pdf`,
`is_indexable` leaves `application/pdf` in the part's content type, and the entry that
`process_part` then stores says `application/pdf`, not `application/octet-stream`. -/
theorem classifier_rewrites_octet_stream :
    (is_indexable (some ⟨"application", "octet-stream", []⟩) (some "report.pdf")).2 =
      some ⟨"application", "pdf", []⟩ ∧
    (process_part ⟨false, fun _ => none⟩
        (.message 1 ⟨none, [], none, 0⟩
          (.part 2 (some ⟨"application", "octet-stream", []⟩) (some "report.pdf") [37, 80]))
        (.part 2 (some ⟨"application", "octet-stream", []⟩) (some "report.pdf") [37, 80])
        rock_init).mail_tree =
      [("part-0.1", .object [("content-type", "application/pdf"), ("filename", "report.pdf"),
        ("file", "JVA=\n")])] := by
  constructor <;> decide

/-- C6, amended. `is_indexable` leaves the part's content type as declared, except when the
declared type is `application/octet-stream` and the part is found indexable through its file
name: the content-type object is then rewritten in place to the first pair of a row of the
table (a different type; the parameters are kept). The `content-type` that `format_part`
afterwards writes into the entry is the type `is_indexable` left in the part. -/
theorem classifier_effect_on_content_type (ct : GMimeContentType) (filename : Option String) :
    ((g_mime_content_type_is_type (some ct) "application" "octet-stream" = false ∨
        (is_indexable (some ct) filename).1 = false) →
      (is_indexable (some ct) filename).2 = some ct) ∧
    ((g_mime_content_type_is_type (some ct) "application" "octet-stream" = true ∧
        (is_indexable (some ct) filename).1 = true) →
      ∃ m ∈ mappings, ∃ c, m.ct.head? = some c ∧
        (is_indexable (some ct) filename).2 =
          some { ct with type := c.type, subtype := c.subtype } ∧
        ({ ct with type := c.type, subtype := c.subtype } : GMimeContentType) ≠ ct) ∧
    ((is_indexable (some ct) filename).1 = true →
      ∀ (env : Env) (parent : GMimeObject) (a : Nat) (content : List Octet) (cur : mail_part),
      ∃ ct1 node, (is_indexable (some ct) filename).2 = some ct1 ∧
        json_object_object_get
          (process_part env parent (.part a (some ct) filename content) cur).mail_tree
          (process_part env parent (.part a (some ct) filename content) cur).id =
          some (.object node) ∧
        json_object_object_get node "content-type" =
          some (g_mime_content_type_to_string ct1)) := by
  refine ⟨?_, ?_, ?_⟩
  · rintro (h | h)
    · unfold is_indexable
      simp only [h, Bool.false_eq_true, if_false]
    · by_cases ho : g_mime_content_type_is_type (some ct) "application" "octet-stream" = true
      · have hun := octet_stream_not_in_mappings ct ho
        unfold is_indexable at h ⊢
        simp only [ho, if_true] at h ⊢
        rcases get_content_type_from_filename_cases ct filename with
          ⟨e, r⟩ | ⟨fn, e, n, r⟩ | ⟨fn, suf, e, s, n, r⟩ |
          ⟨fn, suf, before, m, after, c, e, s, l, nb, hm, hc, r⟩
        · rw [r]
        · rw [r]
        · rw [r]
        · have hmem : m ∈ mappings := by rw [l]; simp
          rw [r] at h
          simp only [first_pair_in_mappings ct m hmem c hc] at h
          cases h
      · unfold is_indexable
        simp only [ho, Bool.false_eq_true, if_false]
  · rintro ⟨ho, h⟩
    have hun := octet_stream_not_in_mappings ct ho
    unfold is_indexable at h ⊢
    simp only [ho, if_true] at h ⊢
    rcases get_content_type_from_filename_cases ct filename with
      ⟨e, r⟩ | ⟨fn, e, n, r⟩ | ⟨fn, suf, e, s, n, r⟩ |
      ⟨fn, suf, before, m, after, c, e, s, l, nb, hm, hc, r⟩
    · rw [r] at h; simp at h
    · rw [r] at h; simp only [hun] at h; cases h
    · rw [r] at h; simp only [hun] at h; cases h
    · have hmem : m ∈ mappings := by rw [l]; simp
      refine ⟨m, hmem, c, hc, by rw [r], ?_⟩
      intro heq
      have hin := first_pair_in_mappings ct m hmem c hc
      rw [heq, hun] at hin
      cases hin
  · intro h env parent a content cur
    obtain ⟨ct1, h1⟩ := is_indexable_snd (some ct) filename h
    refine ⟨ct1, part_node env ct1 filename content, by rw [h1], ?_, part_node_content_type _ _ _ _⟩
    exact process_part_leaf_entry env parent a (some ct) filename content cur _
      (part_entry_of_indexable env a (some ct) filename content ct1 h1)

/-- C6 amended, at `application/octet-stream` with the file name `report.pdf`. -/
theorem classifier_effect_on_content_type_witness :
    (g_mime_content_type_is_type (some ⟨"application", "octet-stream", []⟩)
        "application" "octet-stream" = true ∧
      (is_indexable (some ⟨"application", "octet-stream", []⟩) (some "report.pdf")).1 = true) ∧
    ∃ m ∈ mappings, ∃ c, m.ct.head? = some c ∧
      (is_indexable (some ⟨"application", "octet-stream", []⟩) (some "report.pdf")).2 =
        some { (⟨"application", "octet-stream", []⟩ : GMimeContentType) with
          type := c.type, subtype := c.subtype } ∧
      ({ (⟨"application", "octet-stream", []⟩ : GMimeContentType) with
          type := c.type, subtype := c.subtype } : GMimeContentType) ≠
        ⟨"application", "octet-stream", []⟩ :=
  ⟨⟨by decide, by decide⟩,
    (classifier_effect_on_content_type ⟨"application", "octet-stream", []⟩
      (some "report.pdf")).2.1 ⟨by decide, by decide⟩⟩

/-- C7 fails as stated: a leaf part declared `image/png` is not `text/*`, yet the walk emits no
entry for it, because `image/png` is not in the mappings table. -/
theorem image_png_not_emitted :
    g_mime_content_type_is_type (some ⟨"image", "png", []⟩) "text" "*" = false ∧
    part_entry ⟨false, fun _ => none⟩
      (.part 2 (some ⟨"image", "png", []⟩) none [137, 80, 78, 71]) = none ∧
    process_mail ⟨false, fun _ => none⟩
      (.message 1 ⟨none, [], none, 0⟩
        (.part 2 (some ⟨"image", "png", []⟩) none [137, 80, 78, 71])) =
      [("date", .int64 0)] := by
  refine ⟨?_, ?_, ?_⟩ <;> decide

/-- C7, amended. For every leaf part that `is_indexable` accepts and whose content type, as
`is_indexable` left it, is not `text/*` (`application/pdf` for instance), the walk emits an
entry under the part's identifier whose content is stored under `file` (there is no `body`)
and is the base64 encoding of the part's octets, in the lines of 76 characters ended by a line
feed that the GMime encoder writes; base64-decoding it gives back exactly the octets. -/
theorem binary_part_stored_as_base64 (env : Env) (parent : GMimeObject) (a : Nat)
    (ct : Option GMimeContentType) (filename : Option String) (content : List Octet)
    (cur : mail_part) (ct1 : GMimeContentType)
    (hi : is_indexable ct filename = (true, some ct1))
    (hb : g_mime_content_type_is_type (some ct1) "text" "*" = false) :
    ∃ node,
      json_object_object_get
        (process_part env parent (.part a ct filename content) cur).mail_tree
        (process_part env parent (.part a ct filename content) cur).id = some (.object node) ∧
      json_object_object_get node "file" = some (String.mk (base64_encode 0 content)) ∧
      json_object_object_get node "body" = none ∧
      base64_decode (String.mk (base64_encode 0 content)).data = content := by
  refine ⟨part_node env ct1 filename content, ?_, ?_, ?_, base64_roundtrip content 0⟩
  · exact process_part_leaf_entry env parent a ct filename content cur _
      (part_entry_of_indexable env a ct filename content ct1 hi)
  · rw [part_node_body_file _ _ _ _ _ (Or.inr rfl), filtered_body_field, hb]
    simp only [Bool.false_eq_true, if_false, if_true]
    unfold filtered_body
    simp only [hb, Bool.false_eq_true, if_false]
  · rw [part_node_body_file _ _ _ _ _ (Or.inl rfl), filtered_body_field, hb]
    simp only [Bool.false_eq_true, if_false]
    rw [if_neg (by decide)]

/-- C7 amended, at a part declared `application/pdf` that is the only part of its message. -/
theorem binary_part_stored_as_base64_witness :
    is_indexable (some ⟨"application", "pdf", []⟩) (some "a.pdf") =
      (true, some ⟨"application", "pdf", []⟩) ∧
    g_mime_content_type_is_type (some ⟨"application", "pdf", []⟩) "text" "*" = false ∧
    ∃ node,
      json_object_object_get
        (process_part ⟨false, fun _ => none⟩
          (.message 1 ⟨none, [], none, 0⟩
            (.part 2 (some ⟨"application", "pdf", []⟩) (some "a.pdf") [37, 80, 68, 70]))
          (.part 2 (some ⟨"application", "pdf", []⟩) (some "a.pdf") [37, 80, 68, 70])
          rock_init).mail_tree
        (process_part ⟨false, fun _ => none⟩
          (.message 1 ⟨none, [], none, 0⟩
            (.part 2 (some ⟨"application", "pdf", []⟩) (some "a.pdf") [37, 80, 68, 70]))
          (.part 2 (some ⟨"application", "pdf", []⟩) (some "a.pdf") [37, 80, 68, 70])
          rock_init).id = some (.object node) ∧
      json_object_object_get node "file" =
        some (String.mk (base64_encode 0 [37, 80, 68, 70])) ∧
      json_object_object_get node "body" = none ∧
      base64_decode (String.mk (base64_encode 0 [37, 80, 68, 70])).data = [37, 80, 68, 70] :=
  ⟨by decide, by decide,
    binary_part_stored_as_base64 ⟨false, fun _ => none⟩ _ 2 _ _ [37, 80, 68, 70] rock_init
      ⟨"application", "pdf", []⟩ (by decide) (by decide)⟩

/-- C8. For every `text/*` part that `format_part` handles, the content is stored under
`body` (there is no `file`), and it is what the charset converter makes of the octets when it
is created for the value of the `charset` parameter if there is one, otherwise for `ascii`
(US-ASCII) when the type is `text/plain` and for `iso-8859-1` for every other text subtype.
When the converter cannot be created the octets are stored as they are. -/
theorem text_part_body_charset (env : Env) (ct : GMimeContentType) (filename : Option String)
    (content : List Octet)
    (h : g_mime_content_type_is_type (some ct) "text" "*" = true) :
    ∀ (a : Nat) (info : mail_part), ∃ node,
      json_object_object_get
        (format_part env (.part a (some ct) filename content) info).mail_tree info.id =
        some (.object node) ∧
      json_object_object_get node "file" = none ∧
      (∀ charset, g_mime_content_type_get_parameter ct "charset" = some charset →
        json_object_object_get node "body" =
          some (match env.g_mime_filter_charset_new charset with
            | some charset_filter => octets_to_string (charset_filter content)
            | none => octets_to_string content)) ∧
      (g_mime_content_type_get_parameter ct "charset" = none →
        g_mime_content_type_is_type (some ct) "text" "plain" = true →
        json_object_object_get node "body" =
          some (match env.g_mime_filter_charset_new "ascii" with
            | some charset_filter => octets_to_string (charset_filter content)
            | none => octets_to_string content)) ∧
      (g_mime_content_type_get_parameter ct "charset" = none →
        g_mime_content_type_is_type (some ct) "text" "plain" = false →
        json_object_object_get node "body" =
          some (match env.g_mime_filter_charset_new "iso-8859-1" with
            | some charset_filter => octets_to_string (charset_filter content)
            | none => octets_to_string content)) := by
  intro a info
  have hbody : ∀ cs, source_charset ct = cs →
      json_object_object_get (part_node env ct filename content) "body" =
        some (match env.g_mime_filter_charset_new cs with
          | some charset_filter => octets_to_string (charset_filter content)
          | none => octets_to_string content) := by
    intro cs hcs
    rw [part_node_body_file _ _ _ _ _ (Or.inl rfl), filtered_body_field, h]
    simp only [if_true]
    unfold filtered_body
    simp only [h, if_true, hcs]
    cases env.g_mime_filter_charset_new cs <;> rfl
  refine ⟨part_node env ct filename content, format_part_entry _ _ _ _ _ _, ?_, ?_, ?_, ?_⟩
  · rw [part_node_body_file _ _ _ _ _ (Or.inr rfl), filtered_body_field, h]
    simp only [if_true]
    rw [if_neg (by decide)]
  · intro charset hp
    exact hbody charset (by unfold source_charset; rw [hp])
  · intro hp ht
    exact hbody "ascii" (by unfold source_charset; rw [hp]; simp only [ht, if_true])
  · intro hp ht
    exact hbody "iso-8859-1" (by
      unfold source_charset; rw [hp]; simp only [ht, Bool.false_eq_true, if_false])

/-- C8, at a `text/html` part without `charset` parameter: the converter is created for
`iso-8859-1`. -/
theorem text_part_body_charset_witness :
    g_mime_content_type_is_type (some ⟨"text", "html", []⟩) "text" "*" = true ∧
    ∃ node,
      json_object_object_get
        (format_part ⟨false, fun cs => if cs = "iso-8859-1" then some id else none⟩
          (.part 2 (some ⟨"text", "html", []⟩) none [60, 233])
          { rock_init with id := "part-0.1" }).mail_tree "part-0.1" = some (.object node) ∧
      json_object_object_get node "body" = some (octets_to_string [60, 233]) :=
  ⟨by decide,
    let ⟨node, h1, _, _, _, h5⟩ :=
      text_part_body_charset ⟨false, fun cs => if cs = "iso-8859-1" then some id else none⟩
        ⟨"text", "html", []⟩ none [60, 233] (by decide) 2 { rock_init with id := "part-0.1" }
    ⟨node, h1, h5 (by decide) (by decide)⟩⟩

/-- C9. A message without recipients gives a document without `to` key; no document has a `to`
key holding an empty list: when there are recipients, `to` holds all of them. -/
theorem no_recipients_no_to_key (env : Env) (message : GMimeObject) :
    ((message_headers message).recipients = [] →
      json_object_object_get (process_mail env message) "to" = none) ∧
    json_object_object_get (process_mail env message) "to" ≠ some (.array []) ∧
    ((message_headers message).recipients ≠ [] →
      json_object_object_get (process_mail env message) "to" =
        some (.array (message_headers message).recipients)) := by
  have hto := header_key_not_id "to" (Or.inr (Or.inl rfl))
  have hw : json_object_object_get (process_mail env message) "to" =
      json_object_object_get (add_headers (message_headers message) []) "to" := by
    unfold process_mail process_mail_state
    exact walk_keeps_other_keys env "to" hto.1 hto.2 message _ (Or.inl rfl) (Or.inl rfl)
  have hh : json_object_object_get (add_headers (message_headers message) []) "to" =
      (g_mime_message_get_all_recipients (message_headers message)).map json_value.array := by
    unfold add_headers
    generalize message_headers message = h
    rw [get_add, if_neg (by decide)]
    have hnil : json_object_object_get ([] : json_object json_value) "to" = none := rfl
    have d1 : ¬ ("to" = "subject") := by decide
    have d2 : ¬ ("to" = "from") := by decide
    cases h.subject <;> cases hr : g_mime_message_get_all_recipients h <;> cases h.sender <;>
      simp only [get_add, hnil, d1, d2, if_false, if_true, Option.map]
  rw [hw, hh]
  unfold g_mime_message_get_all_recipients
  refine ⟨?_, ?_, ?_⟩
  · intro h; simp [h]
  · by_cases h : (message_headers message).recipients = []
    · simp [h]
    · simp [h]
  · intro h; simp [h]

/-- C9, at a message with an empty recipient list and a single text part. -/
theorem no_recipients_no_to_key_witness :
    (message_headers (.message 1 ⟨some "a@example.org", [], some "hello", 0⟩
      (.part 2 (some ⟨"text", "plain", []⟩) none [104, 105]))).recipients = [] ∧
    json_object_object_get (process_mail ⟨false, fun _ => none⟩
      (.message 1 ⟨some "a@example.org", [], some "hello", 0⟩
        (.part 2 (some ⟨"text", "plain", []⟩) none [104, 105]))) "to" = none :=
  ⟨rfl, (no_recipients_no_to_key ⟨false, fun _ => none⟩
    (.message 1 ⟨some "a@example.org", [], some "hello", 0⟩
      (.part 2 (some ⟨"text", "plain", []⟩) none [104, 105]))).1 rfl⟩

/-- C10 fails as stated: one call of `process_part` on a Container (message/rfc822) part, which
is not a Leaf, recurses into the contained message and here raises the depth by 2. -/
theorem container_call_raises_depth_by_two :
    forwarded_container.is_message_part = true ∧
    (process_part ⟨false, fun _ => none⟩ forwarded_root forwarded_container
      (process_part ⟨false, fun _ => none⟩ (.message 1 ⟨none, [], none, 0⟩ forwarded_root)
        forwarded_root rock_init)).depth =
      (process_part ⟨false, fun _ => none⟩ (.message 1 ⟨none, [], none, 0⟩ forwarded_root)
        forwarded_root rock_init).depth + 2 := by
  constructor <;> decide

/-- C10, amended. One call of `process_part` on a part that is not a Container leaves the
depth unchanged or raises it by exactly 1; it raises it exactly when the part is a Leaf whose
parent is a Multipart or Container node that is also the most recently visited part, and the
Leaf then gets rank 1 (identifier `part-<depth+1>.1`). A call on any part, a Container
included, never lowers the depth, and along the whole traversal of any message the depths
printed at the start of each call are non-decreasing and at most the final depth. -/
theorem depth_step_and_monotone (env : Env) (parent part : GMimeObject) (cur : mail_part) :
    (part.is_message_part = false →
      ((process_part env parent part cur).depth = cur.depth ∨
        (process_part env parent part cur).depth = cur.depth + 1) ∧
      ((process_part env parent part cur).depth = cur.depth + 1 ↔
        (∃ a ct filename content, part = .part a ct filename content) ∧
        (parent.is_multipart || parent.is_message_part) = true ∧
        cur.last_part = some parent.addr) ∧
      ((process_part env parent part cur).depth = cur.depth + 1 →
        (process_part env parent part cur).rank = 1 ∧
        (process_part env parent part cur).id = part_id (cur.depth + 1) 1)) ∧
    cur.depth ≤ (process_part env parent part cur).depth ∧
    (∀ message : GMimeObject,
      (found_depths (process_mail_state env message).stdout).Pairwise (· ≤ ·) ∧
      ∀ x ∈ found_depths (process_mail_state env message).stdout,
        x ≤ (process_mail_state env message).depth) := by
  refine ⟨?_, process_part_depth_le env parent part cur, ?_⟩
  · intro hc
    cases part with
    | message_part a ct m => simp [GMimeObject.is_message_part] at hc
    | part a ct fn content =>
      have h := process_part_leaf_eq env parent a ct fn content cur
      simp only [] at h
      obtain ⟨h1, h2, h3, _, _, _⟩ := h
      by_cases he : (parent.is_multipart || parent.is_message_part) = true ∧
          cur.last_part = some parent.addr
      · rw [if_pos he] at h1 h2
        refine ⟨Or.inr h1, ⟨fun _ => ⟨⟨a, ct, fn, content, rfl⟩, he⟩, fun _ => h1⟩, fun _ => ?_⟩
        exact ⟨h2, by rw [h3, h1, h2]⟩
      · rw [if_neg he] at h1
        refine ⟨Or.inl h1, ⟨fun h => ?_, fun h => absurd h.2 he⟩, fun h => ?_⟩
        · rw [h1] at h; omega
        · rw [h1] at h; omega
    | multipart a ct ch =>
      have hd : (process_part env parent (.multipart a ct ch) cur).depth = cur.depth := by
        rw [process_part_multipart]; simp
      rw [hd]
      refine ⟨Or.inl rfl, ⟨fun h => by omega, ?_⟩, fun h => by omega⟩
      rintro ⟨⟨_, _, _, _, h⟩, _⟩; cases h
    | message_fragment a ct =>
      have hd : (process_part env parent (.message_fragment a ct) cur).depth = cur.depth := by
        rw [process_part_message_fragment]; simp
      rw [hd]
      refine ⟨Or.inl rfl, ⟨fun h => by omega, ?_⟩, fun h => by omega⟩
      rintro ⟨⟨_, _, _, _, h⟩, _⟩; cases h
    | other a ct =>
      have hd : (process_part env parent (.other a ct) cur).depth = cur.depth := by
        rw [process_part_other]; simp
      rw [hd]
      refine ⟨Or.inl rfl, ⟨fun h => by omega, ?_⟩, fun h => by omega⟩
      rintro ⟨⟨_, _, _, _, h⟩, _⟩; cases h
    | message a h m =>
      have hd : (process_part env parent (.message a h m) cur).depth = cur.depth := by
        rw [process_part_message]; simp
      rw [hd]
      refine ⟨Or.inl rfl, ⟨fun h => by omega, ?_⟩, fun h => by omega⟩
      rintro ⟨⟨_, _, _, _, h⟩, _⟩; cases h
  · intro message
    unfold process_mail_state
    obtain ⟨_, new, e, b, p⟩ := walk_depth env message
      { rock_init with mail_tree := add_headers (message_headers message) [] }
    have e0 : found_depths
        ({ rock_init with mail_tree := add_headers (message_headers message) [] } :
          mail_part).stdout = [] := rfl
    rw [e, e0, List.nil_append]
    exact ⟨p, fun x hx => (b x hx).2⟩

/-- C10 amended, at the first leaf below a multipart that was just visited: the depth goes
from 0 to 1. -/
theorem depth_step_and_monotone_witness :
    (GMimeObject.part 4 (some ⟨"text", "plain", []⟩) none [104, 105]).is_message_part = false ∧
    ((process_part ⟨true, fun _ => none⟩ (.multipart 2 none [])
        (.part 4 (some ⟨"text", "plain", []⟩) none [104, 105])
        { rock_init with last_part := some 2 }).depth =
        ({ rock_init with last_part := some 2 } : mail_part).depth + 1 ↔
      (∃ a ct filename content,
        GMimeObject.part 4 (some ⟨"text", "plain", []⟩) none [104, 105] =
          .part a ct filename content) ∧
      ((GMimeObject.multipart 2 none []).is_multipart ||
        (GMimeObject.multipart 2 none []).is_message_part) = true ∧
      ({ rock_init with last_part := some 2 } : mail_part).last_part =
        some (GMimeObject.multipart 2 none []).addr) :=
  ⟨rfl, ((depth_step_and_monotone ⟨true, fun _ => none⟩ (.multipart 2 none [])
    (.part 4 (some ⟨"text", "plain", []⟩) none [104, 105])
    { rock_init with last_part := some 2 }).1 rfl).2.1⟩

theorem walk_mixed_text_alternative_pdf (env : Env) (headers : Headers)
    (fn0 fn1 fn2 fn3 : Option String) (c0 c1 c2 c3 : List Octet)
    (tree : json_object json_value) :
    (g_mime_message_foreach env
      (mixed_text_alternative_pdf headers fn0 fn1 fn2 fn3 c0 c1 c2 c3)
      { rock_init with mail_tree := tree }).mail_tree =
    json_object_object_add
      (json_object_object_add
        (json_object_object_del
          (json_object_object_add
            (json_object_object_add tree (part_id 1 1)
              (.object (part_node env ⟨"text", "plain", []⟩ fn0 c0)))
            (part_id 2 1) (.object (part_node env ⟨"text", "plain", []⟩ fn1 c1)))
          (part_id 2 1))
        (part_id 2 2) (.object (part_node env ⟨"text", "html", []⟩ fn2 c2)))
      (part_id 2 3) (.object (part_node env ⟨"application", "pdf", []⟩ fn3 c3)) := by
  unfold mixed_text_alternative_pdf
  rw [message_foreach_multipart,
    multipart_foreach_cons_single env _ (.part 3 _ _ _) rfl,
    multipart_foreach_cons_multipart,
    multipart_foreach_cons_single env _ (.part 5 _ _ _) rfl,
    multipart_foreach_cons_single env _ (.part 6 _ _ _) rfl,
    multipart_foreach_cons_single env _ (.part 7 _ _ _) rfl,
    multipart_foreach_nil, multipart_foreach_nil]
  simp only [process_part_multipart, process_part_leaf]
  rcases env with ⟨_ | _, conv⟩ <;> rfl

theorem trace_mixed_text_alternative_pdf (conv : String → Option (List Octet → List Octet))
    (headers : Headers) (fn0 fn1 fn2 fn3 : Option String) (c0 c1 c2 c3 : List Octet)
    (tree : json_object json_value) :
    id_lines (g_mime_message_foreach ⟨true, conv⟩
      (mixed_text_alternative_pdf headers fn0 fn1 fn2 fn3 c0 c1 c2 c3)
      { rock_init with mail_tree := tree }).stdout =
      [part_id 1 1, part_id 2 1, part_id 2 2, part_id 2 3] := by
  unfold mixed_text_alternative_pdf
  rw [message_foreach_multipart,
    multipart_foreach_cons_single _ _ (.part 3 _ _ _) rfl,
    multipart_foreach_cons_multipart,
    multipart_foreach_cons_single _ _ (.part 5 _ _ _) rfl,
    multipart_foreach_cons_single _ _ (.part 6 _ _ _) rfl,
    multipart_foreach_cons_single _ _ (.part 7 _ _ _) rfl,
    multipart_foreach_nil, multipart_foreach_nil]
  simp only [id_lines_process_part_leaf, id_lines_process_part_multipart]
  simp only [process_part_multipart, process_part_leaf]
  rfl
/-- C11. In the message multipart/mixed[ text/plain, multipart/alternative[text/plain,
text/html], application/pdf ], whatever its headers, file names and bodies, the
application/pdf part is a direct child of the top-level multipart, like the first text/plain,
and yet gets depth 2: the document is the header keys followed by `part-1.1` (the first
text/plain), `part-2.2` (the text/html) and `part-2.3` (the application/pdf). With `-d` the
identifiers printed are `part-1.1`, `part-2.1`, `part-2.2`, `part-2.3`. -/
theorem sibling_after_alternative_keeps_depth (env : Env) (headers : Headers)
    (fn0 fn1 fn2 fn3 : Option String) (c0 c1 c2 c3 : List Octet) :
    (∃ alternative,
      mixed_text_alternative_pdf headers fn0 fn1 fn2 fn3 c0 c1 c2 c3 =
        .message 1 headers (.multipart 2 (some ⟨"multipart", "mixed", []⟩)
          [.part 3 (some ⟨"text", "plain", []⟩) fn0 c0, alternative,
           .part 7 (some ⟨"application", "pdf", []⟩) fn3 c3])) ∧
    process_mail env (mixed_text_alternative_pdf headers fn0 fn1 fn2 fn3 c0 c1 c2 c3) =
      add_headers headers [] ++
        [("part-1.1", .object (part_node env ⟨"text", "plain", []⟩ fn0 c0)),
         ("part-2.2", .object (part_node env ⟨"text", "html", []⟩ fn2 c2)),
         ("part-2.3", .object (part_node env ⟨"application", "pdf", []⟩ fn3 c3))] ∧
    (∀ e ∈ add_headers headers [],
      e.1 = "from" ∨ e.1 = "to" ∨ e.1 = "subject" ∨ e.1 = "date") ∧
    id_lines (process_mail_state ⟨true, env.g_mime_filter_charset_new⟩
      (mixed_text_alternative_pdf headers fn0 fn1 fn2 fn3 c0 c1 c2 c3)).stdout =
      ["part-1.1", "part-2.1", "part-2.2", "part-2.3"] := by
  have e11 : part_id 1 1 = "part-1.1" := by decide
  have e21 : part_id 2 1 = "part-2.1" := by decide
  have e22 : part_id 2 2 = "part-2.2" := by decide
  have e23 : part_id 2 3 = "part-2.3" := by decide
  refine ⟨⟨_, rfl⟩, ?_, add_headers_keys headers, ?_⟩
  · have h11 := add_headers_no_part headers 1 1
    have h21 := add_headers_no_part headers 2 1
    have h22 := add_headers_no_part headers 2 2
    have h23 := add_headers_no_part headers 2 3
    unfold process_mail process_mail_state
    have hh : message_headers
        (mixed_text_alternative_pdf headers fn0 fn1 fn2 fn3 c0 c1 c2 c3) = headers := rfl
    have k1 : ∀ (v : json_value), ∀ e ∈ add_headers headers [] ++ [(part_id 1 1, v)],
        e.1 ≠ part_id 2 1 ∧ e.1 ≠ part_id 2 2 := by
      intro v e he
      rw [List.mem_append] at he
      rcases he with he | he
      · exact ⟨h21 e he, h22 e he⟩
      · simp only [List.mem_singleton] at he
        rw [he]
        exact ⟨show part_id 1 1 ≠ part_id 2 1 by decide,
          show part_id 1 1 ≠ part_id 2 2 by decide⟩
    rw [hh, walk_mixed_text_alternative_pdf, add_fresh _ _ _ h11,
      add_fresh _ _ _ (fun e he => (k1 _ e he).1), del_last _ _ _ (fun e he => (k1 _ e he).1),
      add_fresh _ _ _ (fun e he => (k1 _ e he).2), add_fresh]
    · rw [e11, e22, e23]; simp
    · intro e he
      simp only [List.mem_append, List.mem_singleton] at he
      rcases he with (he | he) | he
      · exact h23 e he
      · rw [he]; show part_id 1 1 ≠ part_id 2 3; decide
      · rw [he]; show part_id 2 2 ≠ part_id 2 3; decide
  · unfold process_mail_state
    rw [trace_mixed_text_alternative_pdf, e11, e21, e22, e23]

/-- C12. Every call of `process_part` on a Leaf part gives it the identifier
`part-<depth>.<rank>` of a numbering (depth, rank) strictly above the one before the call, in
the lexicographic order, and a call on any other part never moves the numbering down. Hence,
for every message, the identifiers given to the successive Leaf parts of the traversal (the
ones `-d` prints, one per leaf visit) are strictly increasing in that order; no two Leaf parts
get the same identifier; and adding an entry under the identifier of a later Leaf leaves what
is stored under the identifier of an earlier Leaf as it was. -/
theorem identifiers_strictly_increasing (env : Env) (message : GMimeObject) :
    (∀ (parent : GMimeObject) (a : Nat) (ct : Option GMimeContentType)
        (filename : Option String) (content : List Octet) (s : mail_part),
      (process_part env parent (.part a ct filename content) s).id =
        part_id (process_part env parent (.part a ct filename content) s).depth
          (process_part env parent (.part a ct filename content) s).rank ∧
      numbering_lt (s.depth, s.rank)
        ((process_part env parent (.part a ct filename content) s).depth,
          (process_part env parent (.part a ct filename content) s).rank)) ∧
    (∀ (parent part : GMimeObject) (s : mail_part),
      ((process_part env parent part s).depth, (process_part env parent part s).rank) =
        (s.depth, s.rank) ∨
      numbering_lt (s.depth, s.rank)
        ((process_part env parent part s).depth, (process_part env parent part s).rank)) ∧
    ∃ ids : List (Nat × Nat),
      ids.length = (message_visits message).length ∧
      id_lines (process_mail_state ⟨true, env.g_mime_filter_charset_new⟩ message).stdout =
        ids.map (fun x => part_id x.1 x.2) ∧
      ids.Pairwise numbering_lt ∧
      (ids.map (fun x => part_id x.1 x.2)).Nodup ∧
      ids.Pairwise (fun x y => ∀ (tree : json_object json_value) (v : json_value),
        json_object_object_get (json_object_object_add tree (part_id y.1 y.2) v)
          (part_id x.1 x.2) = json_object_object_get tree (part_id x.1 x.2)) := by
  refine ⟨?_, process_part_numbering env, ?_⟩
  · intro parent a ct filename content s
    have h := process_part_leaf_eq env parent a ct filename content s
    simp only [] at h
    refine ⟨h.2.2.1, ?_⟩
    unfold numbering_lt
    simp only
    rw [h.1, h.2.1]
    split
    · left; omega
    · right; exact ⟨rfl, by omega⟩
  · obtain ⟨ids, n, c, _, d, _⟩ := walk_numbering ⟨true, env.g_mime_filter_charset_new⟩ message
      { rock_init with mail_tree := add_headers (message_headers message) [] }
    have hp := (chain_pairwise_lt c).2
    refine ⟨ids, n, ?_, hp, part_id_nodup ids (chain_nodup c), ?_⟩
    · have := d rfl
      simpa [process_mail_state, id_lines, rock_init] using this
    · apply List.Pairwise.imp _ hp
      intro x y hxy tree v
      rw [get_add, if_neg (numbering_lt_ne hxy)]

end Mail2es
